import Mathlib

/-!
# Verification of the dependency-resolution core of `cc/cc.go`

This file gives a shallow embedding of the dependency-resolution core of the
native build-graph compiler (the `cc` package): versioned-name splitting,
stub version selection, static-library topological ordering, the
stub-vs-implementation decision, link-type checking, double-loadable
checking, and the dependency name-rewriting rules of `DepsMutator`.

Library names, versions and file paths are modelled as Lean `String`s
(`List Char` where recursion over the characters is needed).  Fallible code
returns `Except`; the panic in the static orderer is modelled as the error
side of an `Except`.
-/

namespace CcSpec

/-! ## Versioned-name splitting (`StubsLibNameAndVersion`, cc.go:1641-1649)

Go strings are modelled as `List Char`; `strings.LastIndex(name, "#")` is
`lastIndexSharp`. -/

/-- Index of the last occurrence of `'#'` in the character list, as in
`strings.LastIndex(name, "#")` (returns `none` where Go returns `-1`). -/
def lastIndexSharp : List Char → Option Nat
  | [] => none
  | a :: as =>
    match lastIndexSharp as with
    | some i => some (i + 1)
    | none => if a = '#' then some 0 else none

/-- `StubsLibNameAndVersion` (cc.go:1642): split `name#version` into name and
version; the split happens only when a `'#'` exists and is not the final
character. -/
def stubsLibNameAndVersion (name : List Char) : List Char × List Char :=
  match lastIndexSharp name with
  | some sharp =>
    if sharp ≠ name.length - 1 then
      (name.take sharp, name.drop (sharp + 1))
    else
      (name, [])
  | none => (name, [])

/-- `StubsLibNameAndVersion` on `String`s. -/
def stubsLibNameAndVersionS (name : String) : String × String :=
  let p := stubsLibNameAndVersion name.data
  (⟨p.1⟩, ⟨p.2⟩)

/-! ## API levels and stub version selection (`chooseSdkVersion`, cc.go:2157-2185)

`android.ApiLevel` lives outside `src/`.  Modelled from the spec: a version
label is a finite number, or the unbounded "future" level, which the empty
label denotes; the future level is never `≤` a finite ceiling and sorts
highest. -/

/-- Modelled from the spec: `android.ApiLevel` (missing from `src/`), either a
finite numbered level or the unbounded future level. -/
inductive ApiLevel where
  | finite (n : Nat)
  | future
deriving DecidableEq, Repr

/-- Modelled from the spec: `ApiLevel.LessThanOrEqualTo`; a finite level
compares numerically, the future level is `≤` only the future level. -/
def ApiLevel.lessThanOrEqualTo : ApiLevel → ApiLevel → Bool
  | .finite m, .finite n => m ≤ n
  | .finite _, .future => true
  | .future, .finite _ => false
  | .future, .future => true

/-- Decimal digits to a number, accumulator style; `none` on a non-digit. -/
def decDigits : Nat → List Char → Option Nat
  | acc, [] => some acc
  | acc, c :: cs =>
    if '0' ≤ c ∧ c ≤ '9' then decDigits (acc * 10 + (c.toNat - '0'.toNat)) cs
    else none

/-- Parse a non-empty all-decimal string (as `strconv.Atoi` does for the
version strings used here). -/
def parseDecimal (s : String) : Option Nat :=
  match s.data with
  | [] => none
  | l => decDigits 0 l

/-- Modelled from the spec: `android.ApiLevelFromUser` (missing from `src/`);
parses `"current"` as the future level and a decimal string as a finite
level, failing on anything else. -/
def apiLevelFromUser (s : String) : Except String ApiLevel :=
  if s = "current" then .ok .future
  else
    match parseDecimal s with
    | some n => .ok (.finite n)
    | none => .error s

/-- `FlagExporterInfo`: exported include dirs / flags published by a
producer. -/
structure FlagExporterInfo where
  includeDirs : List String
  flags : List String
deriving DecidableEq, Repr

/-- `StaticLibraryInfo`: a static library artifact plus its topologically
ordered transitive closure (the `TransitiveStaticLibrariesForOrdering`
DepSet, modelled from the spec as an ordered duplicate-free list). -/
structure StaticLibraryInfo where
  staticLibrary : String
  transitiveStaticLibrariesForOrdering : List String
deriving DecidableEq, Repr

/-- `SharedLibraryInfo`: a shared library artifact, its optional table of
contents, and the optional static analogue archive. -/
structure SharedLibraryInfo where
  sharedLibrary : String
  tableOfContents : Option String
  staticAnalogue : Option StaticLibraryInfo
deriving DecidableEq, Repr

/-- `SharedLibraryStubsInfo`: one entry of a stub table — a version label,
the stub's shared library info and its exported flags. -/
structure SharedLibraryStubsInfo where
  version : String
  sharedLibraryInfo : SharedLibraryInfo
  flagExporterInfo : FlagExporterInfo
deriving DecidableEq, Repr

/-- The version label of a stub entry as an `ApiLevel` (cc.go:2166-2175):
the empty label is the future level, otherwise `ApiLevelFromUser`. -/
def stubApiLevel (s : SharedLibraryStubsInfo) : Except String ApiLevel :=
  if s.version = "" then .ok .future else apiLevelFromUser s.version

/-- Failure of `chooseSdkVersion`: either a version label failed to parse, or
no entry qualified (the payload carries the full ordered version list and
the requested ceiling, as in the `fmt.Errorf` at cc.go:2184). -/
inductive ChooseSdkError where
  | apiLevelParse (s : String)
  | notFound (versionList : List String) (ceiling : ApiLevel)
deriving DecidableEq, Repr

/-- The scan of `chooseSdkVersion`'s loop (cc.go:2164-2179), written over the
reversed (newest-first) stub list: return the first entry whose level is
`≤ maxSdkVersion`, propagate a parse error, `none` when no entry
qualifies. -/
def chooseFromNewest (maxSdkVersion : ApiLevel) :
    List SharedLibraryStubsInfo → Option (Except String SharedLibraryStubsInfo)
  | [] => none
  | s :: rest =>
    match stubApiLevel s with
    | .error e => some (.error e)
    | .ok ver =>
      if ver.lessThanOrEqualTo maxSdkVersion then some (.ok s)
      else chooseFromNewest maxSdkVersion rest

/-- `chooseSdkVersion` (cc.go:2161-2185): returns the highest stub version
`≤ maxSdkVersion`, scanning the oldest-to-newest list from its end; when no
entry qualifies, fails with the full ordered version list and the
ceiling. -/
def chooseSdkVersion (stubsInfo : List SharedLibraryStubsInfo)
    (maxSdkVersion : ApiLevel) : Except ChooseSdkError SharedLibraryStubsInfo :=
  match chooseFromNewest maxSdkVersion stubsInfo.reverse with
  | some (.ok s) => .ok s
  | some (.error e) => .error (.apiLevelParse e)
  | none => .error (.notFound (stubsInfo.map (·.version)) maxSdkVersion)

/-! ### Lemmas about `lastIndexSharp` and the name/version split -/

theorem lastIndexSharp_eq_none {s : List Char} (h : '#' ∉ s) :
    lastIndexSharp s = none := by
  induction s with
  | nil => rfl
  | cons a as ih =>
    have ha : a ≠ '#' := fun hx => h (hx ▸ List.mem_cons_self a as)
    have has : '#' ∉ as := fun hx => h (List.mem_cons_of_mem a hx)
    simp [lastIndexSharp, ih has, ha]

theorem lastIndexSharp_append {v : List Char} (hv : '#' ∉ v) (l : List Char) :
    lastIndexSharp (l ++ '#' :: v) = some l.length := by
  induction l with
  | nil =>
    simp [lastIndexSharp, lastIndexSharp_eq_none hv]
  | cons a as ih =>
    simp [lastIndexSharp, ih]

theorem apiLevel_le_refl (a : ApiLevel) : a.lessThanOrEqualTo a = true := by
  cases a <;> simp [ApiLevel.lessThanOrEqualTo]

/-- **C10** — `StubsLibNameAndVersion` splits a name at its *last* `'#'`,
and only when that `'#'` exists and is not the final character: a name
without `'#'`, or ending in `'#'`, is returned whole with the empty version;
otherwise everything before the last `'#'` becomes the library name and the
non-empty remainder the version. -/
theorem stubsLibNameAndVersion_spec :
    (∀ name : List Char, '#' ∉ name → stubsLibNameAndVersion name = (name, []))
    ∧ (∀ l : List Char, stubsLibNameAndVersion (l ++ ['#']) = (l ++ ['#'], []))
    ∧ (∀ (l v : List Char), '#' ∉ v → v ≠ [] →
        stubsLibNameAndVersion (l ++ '#' :: v) = (l, v)) := by
  refine ⟨?_, ?_, ?_⟩
  · intro name h
    simp [stubsLibNameAndVersion, lastIndexSharp_eq_none h]
  · intro l
    have h : lastIndexSharp (l ++ '#' :: ([] : List Char)) = some l.length :=
      lastIndexSharp_append (by simp) l
    simp only [stubsLibNameAndVersion, h]
    have hlen : (l ++ ['#']).length - 1 = l.length := by
      simp
    simp [hlen]
  · intro l v hv hne
    have h : lastIndexSharp (l ++ '#' :: v) = some l.length :=
      lastIndexSharp_append hv l
    have hvpos : 0 < v.length := List.length_pos.mpr hne
    have hlen : (l ++ '#' :: v).length - 1 = l.length + v.length := by
      simp [List.length_append]
    have hne' : l.length ≠ l.length + v.length := by omega
    have htake : (l ++ '#' :: v).take l.length = l := List.take_left l ('#' :: v)
    have hdrop : (l ++ '#' :: v).drop (l.length + 1) = v := by
      have : l ++ '#' :: v = (l ++ ['#']) ++ v := by simp
      rw [this]
      have hl : l.length + 1 = (l ++ ['#']).length := by simp
      rw [hl, List.drop_left]
    simp [stubsLibNameAndVersion, h, hlen, hne', htake, hdrop]

/-- Witness for C10: a name ending in `'#'` keeps its empty pin, and a name
with two `'#'` characters splits at the last one. -/
theorem stubsLibNameAndVersion_spec_witness :
    stubsLibNameAndVersion ['l', 'i', 'b', '#'] = (['l', 'i', 'b', '#'], [])
    ∧ stubsLibNameAndVersion ['a', '#', 'b', '#', '1', '0'] = (['a', '#', 'b'], ['1', '0']) :=
  ⟨stubsLibNameAndVersion_spec.2.1 ['l', 'i', 'b'],
   stubsLibNameAndVersion_spec.2.2 ['a', '#', 'b'] ['1', '0'] (by decide) (by decide)⟩

/-! ### Lemmas about `chooseSdkVersion` -/

theorem chooseFromNewest_none (ceiling : ApiLevel) :
    ∀ (L : List SharedLibraryStubsInfo) (lv : List ApiLevel),
      L.map stubApiLevel = lv.map Except.ok →
      (∀ a ∈ lv, a.lessThanOrEqualTo ceiling = false) →
      chooseFromNewest ceiling L = none := by
  intro L
  induction L with
  | nil => intro lv _ _; rfl
  | cons s rest ih =>
    intro lv hmap hall
    cases lv with
    | nil => simp at hmap
    | cons a lvrest =>
      simp only [List.map_cons, List.cons.injEq] at hmap
      obtain ⟨hs, hrest⟩ := hmap
      have ha := hall a (List.mem_cons_self a lvrest)
      simp only [chooseFromNewest, hs, ha]
      exact ih lvrest hrest (fun b hb => hall b (List.mem_cons_of_mem a hb))

theorem chooseFromNewest_finds (ceiling : ApiLevel) :
    ∀ (L : List SharedLibraryStubsInfo) (lv : List ApiLevel),
      L.map stubApiLevel = lv.map Except.ok →
      lv.Pairwise (fun x y => y.lessThanOrEqualTo x = true) →
      (∃ a ∈ lv, a.lessThanOrEqualTo ceiling = true) →
      ∃ s a, chooseFromNewest ceiling L = some (.ok s) ∧ s ∈ L
        ∧ stubApiLevel s = .ok a ∧ a.lessThanOrEqualTo ceiling = true
        ∧ ∀ b ∈ lv, b.lessThanOrEqualTo ceiling = true → b.lessThanOrEqualTo a = true := by
  intro L
  induction L with
  | nil =>
    intro lv hmap hsort hex
    cases lv with
    | nil => obtain ⟨a, ha, _⟩ := hex; exact absurd ha (List.not_mem_nil a)
    | cons a lvrest => simp at hmap
  | cons s rest ih =>
    intro lv hmap hsort hex
    cases lv with
    | nil => simp at hmap
    | cons a lvrest =>
      simp only [List.map_cons, List.cons.injEq] at hmap
      obtain ⟨hs, hrest⟩ := hmap
      rw [List.pairwise_cons] at hsort
      obtain ⟨hhead, hsort'⟩ := hsort
      by_cases hle : a.lessThanOrEqualTo ceiling = true
      · refine ⟨s, a, ?_, List.mem_cons_self s rest, hs, hle, ?_⟩
        · simp [chooseFromNewest, hs, hle]
        · intro b hb _
          rcases List.mem_cons.mp hb with hb | hb
          · exact hb ▸ apiLevel_le_refl a
          · exact hhead b hb
      · have hle' : a.lessThanOrEqualTo ceiling = false := by
          cases hab : a.lessThanOrEqualTo ceiling
          · rfl
          · exact absurd hab hle
        have hex' : ∃ b ∈ lvrest, b.lessThanOrEqualTo ceiling = true := by
          obtain ⟨b, hb, hble⟩ := hex
          rcases List.mem_cons.mp hb with hb | hb
          · exact absurd (hb ▸ hble) hle
          · exact ⟨b, hb, hble⟩
        obtain ⟨s', a', hres, hmem, hsa, hale, hmax⟩ := ih lvrest hrest hsort' hex'
        refine ⟨s', a', ?_, List.mem_cons_of_mem s hmem, hsa, hale, ?_⟩
        · simp [chooseFromNewest, hs, hle', hres]
        · intro b hb hble
          rcases List.mem_cons.mp hb with hb | hb
          · exact absurd (hb ▸ hble) hle
          · exact hmax b hb hble

/-- A concrete stub-table entry used by the version-selection examples. -/
def mkStubEntry (v : String) : SharedLibraryStubsInfo :=
  ⟨v, ⟨"libx.so." ++ v, none, none⟩, ⟨[], []⟩⟩

/-- **C1** — stub version selection: over a stub table whose labels parse to
the level list `levels` (oldest-to-newest, non-decreasing, where the empty
label gives the unbounded future level), `chooseSdkVersion` returns an entry
whose level is the largest one `≤ ceiling`, scanning newest-to-oldest, and
when no entry qualifies it returns an error carrying the full ordered
version list and the requested ceiling; in particular for versions
`[9, 11, "current"]`, ceiling 10 returns 9, ceiling 11 returns 11, and
ceiling 8 fails. -/
theorem chooseSdkVersion_spec (stubsInfo : List SharedLibraryStubsInfo)
    (levels : List ApiLevel) (ceiling : ApiLevel)
    (hpar : stubsInfo.map stubApiLevel = levels.map Except.ok)
    (hsorted : levels.Pairwise (fun a b => a.lessThanOrEqualTo b = true)) :
    ((∀ a ∈ levels, a.lessThanOrEqualTo ceiling = false) →
      chooseSdkVersion stubsInfo ceiling
        = .error (.notFound (stubsInfo.map (·.version)) ceiling))
    ∧ ((∃ a ∈ levels, a.lessThanOrEqualTo ceiling = true) →
      ∃ s a, chooseSdkVersion stubsInfo ceiling = .ok s ∧ s ∈ stubsInfo
        ∧ stubApiLevel s = .ok a ∧ a.lessThanOrEqualTo ceiling = true
        ∧ ∀ b ∈ levels, b.lessThanOrEqualTo ceiling = true →
            b.lessThanOrEqualTo a = true)
    ∧ chooseSdkVersion [mkStubEntry "9", mkStubEntry "11", mkStubEntry "current"]
        (.finite 10) = .ok (mkStubEntry "9")
    ∧ chooseSdkVersion [mkStubEntry "9", mkStubEntry "11", mkStubEntry "current"]
        (.finite 11) = .ok (mkStubEntry "11")
    ∧ chooseSdkVersion [mkStubEntry "9", mkStubEntry "11", mkStubEntry "current"]
        (.finite 8) = .error (.notFound ["9", "11", "current"] (.finite 8)) := by
  have hmap' : stubsInfo.reverse.map stubApiLevel = levels.reverse.map Except.ok := by
    rw [List.map_reverse, List.map_reverse, hpar]
  refine ⟨?_, ?_, by rfl, by rfl, by rfl⟩
  · intro hall
    have hnone := chooseFromNewest_none ceiling stubsInfo.reverse levels.reverse
      hmap' (fun a ha => hall a (List.mem_reverse.mp ha))
    simp [chooseSdkVersion, hnone]
  · intro hex
    have hsort' : levels.reverse.Pairwise (fun x y => y.lessThanOrEqualTo x = true) := by
      rw [List.pairwise_reverse]
      exact hsorted
    obtain ⟨a, ha, hale⟩ := hex
    obtain ⟨s, a', hres, hmem, hsa, hale', hmax⟩ :=
      chooseFromNewest_finds ceiling stubsInfo.reverse levels.reverse hmap' hsort'
        ⟨a, List.mem_reverse.mpr ha, hale⟩
    refine ⟨s, a', ?_, List.mem_reverse.mp hmem, hsa, hale', ?_⟩
    · simp [chooseSdkVersion, hres]
    · intro b hb hble
      exact hmax b (List.mem_reverse.mpr hb) hble

/-- Witness for C1: a single-entry table with version 9 under ceiling 10
selects the version-9 entry. -/
theorem chooseSdkVersion_spec_witness :
    ∃ s a, chooseSdkVersion [mkStubEntry "9"] (.finite 10) = .ok s
      ∧ s ∈ [mkStubEntry "9"] ∧ stubApiLevel s = .ok a
      ∧ a.lessThanOrEqualTo (.finite 10) = true
      ∧ ∀ b ∈ [ApiLevel.finite 9], b.lessThanOrEqualTo (.finite 10) = true →
          b.lessThanOrEqualTo a = true :=
  (chooseSdkVersion_spec [mkStubEntry "9"] [ApiLevel.finite 9] (.finite 10)
    (by rfl) (by simp)).2.1 ⟨ApiLevel.finite 9, by simp, by rfl⟩

/-! ## Static-library topological ordering (`orderStaticModuleDeps`, cc.go:2570-2600)

`android.FirstUniquePaths`, `android.FilterPathList` and the `TOPOLOGICAL`
DepSet live outside `src/`; following the spec, the unioned transitive
closure is a single ordered sequence with duplicates removed keeping the
first occurrence, and filtering splits a list by membership preserving
relative order. -/

/-- Modelled from the spec: first-occurrence deduplication with an explicit
seen set, as `android.FirstUniquePaths` does. -/
def firstUniqueAcc (seen : List String) : List String → List String
  | [] => []
  | a :: as =>
    if a ∈ seen then firstUniqueAcc seen as
    else a :: firstUniqueAcc (a :: seen) as

/-- Modelled from the spec: `android.FirstUniquePaths` — duplicates removed,
first occurrence kept. -/
def firstUnique (l : List String) : List String := firstUniqueAcc [] l

/-- Payload of the `panic` in `orderStaticModuleDeps` (cc.go:2595-2596): the
direct dependencies missing from the ordered list, the ordered list, and the
deduplicated direct list. -/
structure OrderPanicInfo where
  missing : List String
  ordered : List String
  staticPaths : List String
deriving DecidableEq, Repr

/-- The deduplicated direct static-library artifact list
(`staticPaths = android.FirstUniquePaths(staticPaths)`, cc.go:2577+2591). -/
def directStaticPaths (staticDeps : List StaticLibraryInfo) : List String :=
  firstUnique (staticDeps.map (·.staticLibrary))

/-- The union of the transitive closures contributed by direct static deps
and by the static analogues of direct shared deps, as one topologically
ordered duplicate-free sequence (cc.go:2575-2588; the DepSet union is
modelled from the spec as first-occurrence deduplicated concatenation). -/
def transitiveStaticUnion (staticDeps : List StaticLibraryInfo)
    (sharedDeps : List SharedLibraryInfo) : List String :=
  firstUnique
    ((staticDeps.map (·.transitiveStaticLibrariesForOrdering)
      ++ (sharedDeps.filterMap (·.staticAnalogue)).map
          (·.transitiveStaticLibrariesForOrdering)).flatten)

/-- `orderStaticModuleDeps` (cc.go:2574-2600): reorder the direct static
dependencies to the topological order of the unioned transitive closure;
the panic on reconciliation failure is the `.error` side. -/
def orderStaticModuleDeps (staticDeps : List StaticLibraryInfo)
    (sharedDeps : List SharedLibraryInfo) :
    Except OrderPanicInfo (List String × List String) :=
  let staticPaths := directStaticPaths staticDeps
  let orderedTransitiveStaticLibs := transitiveStaticUnion staticDeps sharedDeps
  let orderedStaticPaths := orderedTransitiveStaticLibs.filter (· ∈ staticPaths)
  if orderedStaticPaths.length ≠ staticPaths.length then
    .error ⟨staticPaths.filter (· ∉ orderedStaticPaths),
            orderedStaticPaths, staticPaths⟩
  else
    .ok (orderedStaticPaths, orderedTransitiveStaticLibs)

/-! ### Lemmas about `firstUnique` and the orderer -/

theorem mem_firstUniqueAcc (x : String) :
    ∀ (l seen : List String), x ∈ firstUniqueAcc seen l ↔ x ∈ l ∧ x ∉ seen := by
  intro l
  induction l with
  | nil => intro seen; simp [firstUniqueAcc]
  | cons a as ih =>
    intro seen
    by_cases ha : a ∈ seen
    · simp only [firstUniqueAcc, if_pos ha, ih, List.mem_cons]
      constructor
      · rintro ⟨hx, hns⟩; exact ⟨Or.inr hx, hns⟩
      · rintro ⟨hx | hx, hns⟩
        · exact absurd (hx ▸ ha) hns
        · exact ⟨hx, hns⟩
    · simp only [firstUniqueAcc, if_neg ha]
      constructor
      · intro hx
        rcases List.mem_cons.mp hx with hx | hx
        · subst hx; exact ⟨List.mem_cons_self x as, ha⟩
        · have hr := (ih (a :: seen)).mp hx
          exact ⟨List.mem_cons_of_mem a hr.1,
            fun hc => hr.2 (List.mem_cons_of_mem a hc)⟩
      · rintro ⟨hx, hns⟩
        rcases List.mem_cons.mp hx with hx | hx
        · subst hx; exact List.mem_cons_self x _
        · by_cases hxa : x = a
          · subst hxa; exact List.mem_cons_self x _
          · refine List.mem_cons_of_mem a ((ih (a :: seen)).mpr ⟨hx, fun hc => ?_⟩)
            rcases List.mem_cons.mp hc with hc | hc
            · exact hxa hc
            · exact hns hc

theorem nodup_firstUniqueAcc :
    ∀ (l seen : List String), (firstUniqueAcc seen l).Nodup := by
  intro l
  induction l with
  | nil => intro seen; simp [firstUniqueAcc]
  | cons a as ih =>
    intro seen
    by_cases ha : a ∈ seen
    · simpa [firstUniqueAcc, if_pos ha] using ih seen
    · simp only [firstUniqueAcc, if_neg ha, List.nodup_cons]
      refine ⟨fun hc => ?_, ih (a :: seen)⟩
      have := (mem_firstUniqueAcc a as (a :: seen)).mp hc
      exact this.2 (List.mem_cons_self a seen)

theorem sublist_firstUniqueAcc :
    ∀ (l seen : List String), (firstUniqueAcc seen l).Sublist l := by
  intro l
  induction l with
  | nil => intro seen; simp [firstUniqueAcc]
  | cons a as ih =>
    intro seen
    by_cases ha : a ∈ seen
    · simpa [firstUniqueAcc, if_pos ha] using (ih seen).trans (List.sublist_cons_self a as)
    · simpa [firstUniqueAcc, if_neg ha] using (ih (a :: seen)).cons₂ a

theorem mem_firstUnique {x : String} {l : List String} :
    x ∈ firstUnique l ↔ x ∈ l := by
  simp [firstUnique, mem_firstUniqueAcc]

theorem nodup_firstUnique (l : List String) : (firstUnique l).Nodup :=
  nodup_firstUniqueAcc l []

theorem length_filter_eq_of_subset {u s : List String} (hu : u.Nodup)
    (hs : s.Nodup) (hsub : ∀ x ∈ s, x ∈ u) :
    (u.filter (· ∈ s)).length = s.length := by
  have hfin : (u.filter (· ∈ s)).toFinset = s.toFinset := by
    ext x
    simp only [List.mem_toFinset, List.mem_filter, decide_eq_true_eq]
    exact ⟨fun h => h.2, fun h => ⟨hsub x h, h⟩⟩
  calc (u.filter (· ∈ s)).length
      = (u.filter (· ∈ s)).toFinset.card :=
        (List.toFinset_card_of_nodup (hu.filter _)).symm
    _ = s.toFinset.card := by rw [hfin]
    _ = s.length := List.toFinset_card_of_nodup hs

theorem length_filter_lt_of_not_mem {u s : List String} (hu : u.Nodup)
    (hs : s.Nodup) {x : String} (hxs : x ∈ s) (hxu : x ∉ u) :
    (u.filter (· ∈ s)).length < s.length := by
  have hss : (u.filter (· ∈ s)).toFinset ⊂ s.toFinset := by
    constructor
    · intro y hy
      simp only [List.mem_toFinset, List.mem_filter, decide_eq_true_eq] at hy ⊢
      exact hy.2
    · intro hc
      have hx : x ∈ (u.filter (· ∈ s)).toFinset := hc (List.mem_toFinset.mpr hxs)
      simp only [List.mem_toFinset, List.mem_filter, decide_eq_true_eq] at hx
      exact hxu hx.1
  calc (u.filter (· ∈ s)).length
      = (u.filter (· ∈ s)).toFinset.card :=
        (List.toFinset_card_of_nodup (hu.filter _)).symm
    _ < s.toFinset.card := Finset.card_lt_card hss
    _ = s.length := List.toFinset_card_of_nodup hs

/-- **C2** — static-library ordering: when every (deduplicated) direct static
dependency appears in the unioned topologically-ordered transitive closure,
the orderer succeeds and returns exactly that union filtered down to the
direct-dependency set, so the result contains every direct static dependency
exactly once and is a sublist of (hence ordered consistently with) the
union. -/
theorem orderStaticModuleDeps_ordering (staticDeps : List StaticLibraryInfo)
    (sharedDeps : List SharedLibraryInfo)
    (h : ∀ p ∈ directStaticPaths staticDeps,
        p ∈ transitiveStaticUnion staticDeps sharedDeps) :
    orderStaticModuleDeps staticDeps sharedDeps
      = .ok ((transitiveStaticUnion staticDeps sharedDeps).filter
              (· ∈ directStaticPaths staticDeps),
             transitiveStaticUnion staticDeps sharedDeps)
    ∧ (∀ p ∈ staticDeps.map (·.staticLibrary),
        ((transitiveStaticUnion staticDeps sharedDeps).filter
          (· ∈ directStaticPaths staticDeps)).count p = 1)
    ∧ List.Sublist
        ((transitiveStaticUnion staticDeps sharedDeps).filter
          (· ∈ directStaticPaths staticDeps))
        (transitiveStaticUnion staticDeps sharedDeps) := by
  have hu : (transitiveStaticUnion staticDeps sharedDeps).Nodup :=
    nodup_firstUnique _
  have hs : (directStaticPaths staticDeps).Nodup := nodup_firstUnique _
  have hlen := length_filter_eq_of_subset hu hs h
  refine ⟨?_, ?_, List.filter_sublist _⟩
  · simp only [orderStaticModuleDeps, hlen, ne_eq, not_true_eq_false, if_false]
  · intro p hp
    have hpd : p ∈ directStaticPaths staticDeps := mem_firstUnique.mpr hp
    have hpu : p ∈ transitiveStaticUnion staticDeps sharedDeps := h p hpd
    have hpf : p ∈ (transitiveStaticUnion staticDeps sharedDeps).filter
        (· ∈ directStaticPaths staticDeps) := by
      simp only [List.mem_filter, decide_eq_true_eq]
      exact ⟨hpu, hpd⟩
    exact List.count_eq_one_of_mem (hu.filter _) hpf

/-- Witness for C2: two direct static deps `A`, `B` whose transitive sets
place `A` before `B`; the orderer returns `[A, B]`. -/
theorem orderStaticModuleDeps_ordering_witness :
    orderStaticModuleDeps [⟨"A", ["A", "B"]⟩, ⟨"B", ["B"]⟩] []
      = .ok ((transitiveStaticUnion [⟨"A", ["A", "B"]⟩, ⟨"B", ["B"]⟩] []).filter
              (· ∈ directStaticPaths [⟨"A", ["A", "B"]⟩, ⟨"B", ["B"]⟩]),
             transitiveStaticUnion [⟨"A", ["A", "B"]⟩, ⟨"B", ["B"]⟩] [])
    ∧ (∀ p ∈ ([⟨"A", ["A", "B"]⟩, ⟨"B", ["B"]⟩] :
          List StaticLibraryInfo).map (·.staticLibrary),
        ((transitiveStaticUnion [⟨"A", ["A", "B"]⟩, ⟨"B", ["B"]⟩] []).filter
          (· ∈ directStaticPaths [⟨"A", ["A", "B"]⟩, ⟨"B", ["B"]⟩])).count p = 1)
    ∧ List.Sublist
        ((transitiveStaticUnion [⟨"A", ["A", "B"]⟩, ⟨"B", ["B"]⟩] []).filter
          (· ∈ directStaticPaths [⟨"A", ["A", "B"]⟩, ⟨"B", ["B"]⟩]))
        (transitiveStaticUnion [⟨"A", ["A", "B"]⟩, ⟨"B", ["B"]⟩] []) :=
  orderStaticModuleDeps_ordering [⟨"A", ["A", "B"]⟩, ⟨"B", ["B"]⟩] []
    (by decide)

/-- **C4** — reconciliation failure is fatal: when some deduplicated direct
static dependency is absent from the unioned transitive closure, the orderer
panics (modelled as the `.error` result) and the panic payload names every
such missing entry; under the precondition that every direct dependency is
in the union, the panic branch is unreachable and the orderer succeeds. -/
theorem orderStaticModuleDeps_panic (staticDeps : List StaticLibraryInfo)
    (sharedDeps : List SharedLibraryInfo) :
    ((∃ p ∈ directStaticPaths staticDeps,
        p ∉ transitiveStaticUnion staticDeps sharedDeps) →
      ∃ e, orderStaticModuleDeps staticDeps sharedDeps = .error e
        ∧ ∀ p ∈ directStaticPaths staticDeps,
            p ∉ transitiveStaticUnion staticDeps sharedDeps → p ∈ e.missing)
    ∧ ((∀ p ∈ directStaticPaths staticDeps,
          p ∈ transitiveStaticUnion staticDeps sharedDeps) →
      ∃ r, orderStaticModuleDeps staticDeps sharedDeps = .ok r) := by
  constructor
  · rintro ⟨p, hpd, hpu⟩
    have hu : (transitiveStaticUnion staticDeps sharedDeps).Nodup :=
      nodup_firstUnique _
    have hs : (directStaticPaths staticDeps).Nodup := nodup_firstUnique _
    have hlt := length_filter_lt_of_not_mem hu hs hpd hpu
    refine ⟨⟨(directStaticPaths staticDeps).filter
        (· ∉ (transitiveStaticUnion staticDeps sharedDeps).filter
              (· ∈ directStaticPaths staticDeps)),
        (transitiveStaticUnion staticDeps sharedDeps).filter
          (· ∈ directStaticPaths staticDeps),
        directStaticPaths staticDeps⟩, ?_, ?_⟩
    · simp only [orderStaticModuleDeps, ne_eq, Nat.ne_of_lt hlt,
        not_false_eq_true, if_true]
    · intro q hqd hqu
      simp only [List.mem_filter, decide_eq_true_eq]
      refine ⟨hqd, ?_⟩
      simp only [List.mem_filter, decide_eq_true_eq, not_and]
      intro hq
      exact absurd hq hqu
  · intro h
    have hu : (transitiveStaticUnion staticDeps sharedDeps).Nodup :=
      nodup_firstUnique _
    have hs : (directStaticPaths staticDeps).Nodup := nodup_firstUnique _
    have hlen := length_filter_eq_of_subset hu hs h
    refine ⟨((transitiveStaticUnion staticDeps sharedDeps).filter
        (· ∈ directStaticPaths staticDeps),
       transitiveStaticUnion staticDeps sharedDeps), ?_⟩
    simp only [orderStaticModuleDeps, hlen, ne_eq, not_true_eq_false, if_false]

/-- Witness for C4: a direct static dep `A` absent from the (empty) unioned
closure produces the panic payload naming `A`; a well-covered input
succeeds. -/
theorem orderStaticModuleDeps_panic_witness :
    (∃ e, orderStaticModuleDeps [⟨"A", []⟩] [] = .error e
      ∧ ∀ p ∈ directStaticPaths [⟨"A", []⟩],
          p ∉ transitiveStaticUnion [⟨"A", []⟩] [] → p ∈ e.missing)
    ∧ (∃ r, orderStaticModuleDeps [⟨"B", ["B"]⟩] [] = .ok r) :=
  ⟨(orderStaticModuleDeps_panic [⟨"A", []⟩] []).1 ⟨"A", by decide, by decide⟩,
   (orderStaticModuleDeps_panic [⟨"B", ["B"]⟩] []).2 (by decide)⟩

/-! ## Link-type checking (`checkLinkType`, cc.go:1976-2100)

SDK versions are modelled in parsed form: `""` (platform code) is `none`,
`"current"` is `some .current`, a decimal string is `some (.num n)`; the
claims concern only these well-formed values.  `getNdkStlFamily` lives in
`stl.go` outside `src/`, so the STL family of a module is carried as a
field. -/

/-- A parsed `sdk_version` property value. -/
inductive SdkVer where
  | current
  | num (n : Nat)
deriving DecidableEq, Repr

/-- The attributes of one side of a link edge that `checkLinkType` reads. -/
structure LinkModule where
  name : String
  targetAndroid : Bool
  isCcModule : Bool
  useVndk : Bool
  hasVndkDep : Bool
  sdkVersion : Option SdkVer
  inRamdisk : Bool
  inVendorRamdisk : Bool
  inRecovery : Bool
  toolchainLibrary : Bool
  ndkPrebuiltStl : Bool
  stubDecorator : Bool
  selectedStl : String
  ndkStlFamily : String
deriving DecidableEq, Repr

/-- The dependency-tag shape `checkLinkType` switches on (cc.go:1979-1987):
a `libraryDependencyTag`, the `vndkExtDepTag`, another `dependencyTag`, or
any other tag type. -/
inductive LinkTag where
  | library
  | vndkExt
  | otherDependency
  | nonLibrary
deriving DecidableEq, Repr

/-- Errors reported by `checkLinkType` via `ModuleErrorf` (each carries the
producer's name and, for the API check, the offending version). -/
inductive LinkErr where
  | vndkDelegated
  | vndkUnsupportedModuleType
  | nonNdk (producer : String)
  | newerApi (producer : String) (version : SdkVer)
  | stlIncompat (consumerStl : String) (producer : String) (producerStl : String)
deriving DecidableEq, Repr

/-- The tag switch at the top of `checkLinkType` (cc.go:1979-1987): only
library tags and the vndk-extends tag are checked. -/
def checkLinkTypeTagGuard : LinkTag → Bool
  | .library => true
  | .vndkExt => true
  | .otherDependency => false
  | .nonLibrary => false

/-- The API-level monotonicity section of `checkLinkType` (cc.go:2058-2084):
a `"current"` consumer links anything; a finite consumer errors on a
`"current"` producer and on a numerically greater finite producer. -/
def checkApiMonotonicity (fromM toM : LinkModule) : List LinkErr :=
  match fromM.sdkVersion, toM.sdkVersion with
  | some .current, _ => []
  | some (.num _), some .current => [.newerApi toM.name .current]
  | some (.num fromApi), some (.num toApi) =>
    if toApi > fromApi then [.newerApi toM.name (.num toApi)] else []
  | _, _ => []

/-- The STL compatibility section of `checkLinkType` (cc.go:2086-2099). -/
def checkStlCompat (fromM toM : LinkModule) : List LinkErr :=
  if fromM.selectedStl = "" ∨ toM.selectedStl = "" then []
  else if fromM.selectedStl = "ndk_system" ∨ toM.selectedStl = "ndk_system" then []
  else if fromM.ndkStlFamily ≠ toM.ndkStlFamily then
    [.stlIncompat fromM.selectedStl toM.name toM.selectedStl]
  else []

/-- `checkLinkType` (cc.go:1976-2100): the list of errors reported for a
consumer→producer edge (`fromM` is the consumer, `toM` the producer,
`toIsCc` is the `to.(*Module)` type assertion; the VNDK branch delegates to
`vndkCheckLinkType` in `vndk.go`, outside `src/`, marked
`vndkDelegated`). -/
def checkLinkType (fromM toM : LinkModule) (tag : LinkTag) (toIsCc : Bool) :
    List LinkErr :=
  if ¬ checkLinkTypeTagGuard tag then []
  else if ¬ fromM.targetAndroid then []
  else if fromM.isCcModule ∧ fromM.useVndk then
    if toIsCc then (if fromM.hasVndkDep then [.vndkDelegated] else [])
    else [.vndkUnsupportedModuleType]
  else if fromM.sdkVersion = none then []
  else if fromM.inRamdisk then []
  else if fromM.inVendorRamdisk then []
  else if fromM.inRecovery then []
  else if toIsCc ∧ (toM.toolchainLibrary ∨ toM.ndkPrebuiltStl ∨ toM.stubDecorator) then []
  else if "libclang_rt.".data.isPrefixOf fromM.name.data ∧ toM.name = "libc++" then []
  else if toM.sdkVersion = none then [.nonNdk toM.name]
  else checkApiMonotonicity fromM toM ++ checkStlCompat fromM toM

theorem newerApi_not_mem_checkStlCompat (fromM toM : LinkModule)
    (p : String) (v : SdkVer) : LinkErr.newerApi p v ∉ checkStlCompat fromM toM := by
  unfold checkStlCompat
  split
  · simp
  · split
    · simp
    · split <;> simp

/-- **C5** — API-level monotonicity: on an Android-target library edge whose
consumer is NDK-built (finite or `"current"` `sdk_version`, not a VNDK
vendor/product variant, not ramdisk/recovery code) and whose producer is
NDK-built and not one of the exempt kinds, a finite-version consumer gets a
`newerApi` error naming the producer and the offending version whenever the
producer is `"current"` or a numerically greater finite version, no API
error otherwise, and a `"current"` consumer never gets an API error. -/
theorem checkLinkType_apiMonotonicity (fromM toM : LinkModule) (toIsCc : Bool)
    (hA : fromM.targetAndroid = true)
    (hv : ¬(fromM.isCcModule = true ∧ fromM.useVndk = true))
    (hr1 : fromM.inRamdisk = false)
    (hr2 : fromM.inVendorRamdisk = false)
    (hr3 : fromM.inRecovery = false)
    (hex : ¬(toIsCc = true ∧ (toM.toolchainLibrary = true ∨
        toM.ndkPrebuiltStl = true ∨ toM.stubDecorator = true)))
    (hclang : ¬("libclang_rt.".data.isPrefixOf fromM.name.data = true ∧
        toM.name = "libc++")) :
    (∀ f, fromM.sdkVersion = some (.num f) → toM.sdkVersion = some .current →
      LinkErr.newerApi toM.name .current ∈ checkLinkType fromM toM .library toIsCc)
    ∧ (∀ f t, fromM.sdkVersion = some (.num f) → toM.sdkVersion = some (.num t) →
        t > f →
      LinkErr.newerApi toM.name (.num t) ∈ checkLinkType fromM toM .library toIsCc)
    ∧ (∀ f t, fromM.sdkVersion = some (.num f) → toM.sdkVersion = some (.num t) →
        t ≤ f → ∀ p v,
      LinkErr.newerApi p v ∉ checkLinkType fromM toM .library toIsCc)
    ∧ (fromM.sdkVersion = some .current → ∀ p v,
      LinkErr.newerApi p v ∉ checkLinkType fromM toM .library toIsCc) := by
  have hguard : checkLinkTypeTagGuard .library = true := rfl
  have hclang2 : ¬("libclang_rt.".data <+: fromM.name.data ∧ toM.name = "libc++") := by
    intro hc
    exact hclang ⟨List.isPrefixOf_iff_prefix.mpr hc.1, hc.2⟩
  have hbody : fromM.sdkVersion ≠ none → toM.sdkVersion ≠ none →
      checkLinkType fromM toM .library toIsCc
        = checkApiMonotonicity fromM toM ++ checkStlCompat fromM toM := by
    intro hne htne
    simp [checkLinkType, hguard, hA, hv, hne, hr1, hr2, hr3, hex, hclang2, htne]
  refine ⟨?_, ?_, ?_, ?_⟩
  · intro f hf ht
    have hne : fromM.sdkVersion ≠ none := by rw [hf]; simp
    have htne : toM.sdkVersion ≠ none := by rw [ht]; simp
    rw [hbody hne htne]
    simp [checkApiMonotonicity, hf, ht]
  · intro f t hf ht hgt
    have hne : fromM.sdkVersion ≠ none := by rw [hf]; simp
    have htne : toM.sdkVersion ≠ none := by rw [ht]; simp
    rw [hbody hne htne]
    simp [checkApiMonotonicity, hf, ht, hgt]
  · intro f t hf ht hle p v
    have hne : fromM.sdkVersion ≠ none := by rw [hf]; simp
    have htne : toM.sdkVersion ≠ none := by rw [ht]; simp
    rw [hbody hne htne]
    intro hmem
    rcases List.mem_append.mp hmem with hmem | hmem
    · have hngt : ¬ t > f := by omega
      simp [checkApiMonotonicity, hf, ht, hngt] at hmem
    · exact newerApi_not_mem_checkStlCompat fromM toM p v hmem
  · intro hf p v
    have hne : fromM.sdkVersion ≠ none := by rw [hf]; simp
    by_cases htne : toM.sdkVersion = none
    · simp [checkLinkType, hguard, hA, hv, hne, hr1, hr2, hr3, hex, hclang2, htne]
    · rw [hbody hne htne]
      intro hmem
      rcases List.mem_append.mp hmem with hmem | hmem
      · simp [checkApiMonotonicity, hf] at hmem
      · exact newerApi_not_mem_checkStlCompat fromM toM p v hmem

/-- A concrete NDK consumer at API level 10 for the C5 witness. -/
def ndkConsumer10 : LinkModule :=
  ⟨"consumer", true, true, false, false, some (.num 10),
   false, false, false, false, false, false, "", ""⟩

/-- A concrete producer built against `"current"` for the C5 witness. -/
def ndkProducerCurrent : LinkModule :=
  ⟨"producer", true, true, false, false, some .current,
   false, false, false, false, false, false, "", ""⟩

/-- Witness for C5: a consumer bound to API level 10 linking a producer
bound to `"current"` receives the `newerApi` error naming the producer. -/
theorem checkLinkType_apiMonotonicity_witness :
    LinkErr.newerApi "producer" .current
      ∈ checkLinkType ndkConsumer10 ndkProducerCurrent .library true :=
  (checkLinkType_apiMonotonicity ndkConsumer10 ndkProducerCurrent true
    rfl (by decide) rfl rfl rfl (by decide) (by decide)).1 10 rfl rfl

/-! ## Stub-vs-implementation selection (`depsToPaths`, cc.go:2329-2372)

The inputs read by the decision at cc.go:2330-2359.  The APEX membership
queries (`AnyVariantDirectlyInAnyApex`, `DirectlyInAllApexes`,
`ApexContents.DirectlyInApex`) live in the `android` package outside
`src/`; following the spec, each test-for APEX is carried as the list of
dependency names directly inside it, and the two remaining queries as the
booleans the decision consumes. -/

structure StubDecisionInput where
  /-- `moduleLibraryInterface(dep).buildStubs()`: the producer is a
  stubs-building (LLNDK) producer. -/
  depBuildStubs : Bool
  /-- `c.UseVndk()`: the consumer is a vendor/product variant. -/
  consumerUseVndk : Bool
  /-- `apexInfo.IsForPlatform()`: the consumer builds for the platform
  image. -/
  isForPlatform : Bool
  /-- `dep.(android.ApexModule).AnyVariantDirectlyInAnyApex()`. -/
  depAnyVariantDirectlyInAnyApex : Bool
  /-- `c.bootstrap()`. -/
  consumerBootstrap : Bool
  /-- `testFor.ApexContents`, each APEX as its direct dependency names. -/
  testForApexContents : List (List String)
  /-- `depName`. -/
  depName : String
  /-- `android.DirectlyInAllApexes(apexInfo, depName)`. -/
  directlyInAllApexes : Bool
deriving DecidableEq, Repr

/-- The `useStubs` decision (cc.go:2330-2359), evaluated for a non-explicitly
versioned shared edge whose producer publishes stubs. -/
def useStubsDecision (i : StubDecisionInput) : Bool :=
  if i.depBuildStubs && i.consumerUseVndk then
    if !i.isForPlatform then true else false
  else if i.isForPlatform then
    let u := i.depAnyVariantDirectlyInAnyApex && !i.consumerBootstrap
    if i.testForApexContents.any (fun contents => i.depName ∈ contents) then false
    else u
  else
    !i.directlyInAllApexes

/-- The shared-edge resolution around the decision (cc.go:2329-2375): with a
non-empty stub table and a non-explicitly-versioned tag, when the decision
selects the stub, `chooseSdkVersion` picks a stub version against the
consumer's ceiling (`c.apexSdkVersion`), replacing the linked info and
exported flags, and its failure fails the resolution; otherwise the full
implementation's info passes through.  The boolean records whether a stub
was linked. -/
def resolveSharedDep (i : StubDecisionInput) (explicitlyVersioned : Bool)
    (sharedLibraryInfo : SharedLibraryInfo) (depExporterInfo : FlagExporterInfo)
    (stubsInfos : List SharedLibraryStubsInfo) (apexSdkVersion : ApiLevel) :
    Except ChooseSdkError (SharedLibraryInfo × FlagExporterInfo × Bool) :=
  if !explicitlyVersioned && stubsInfos.length > 0 then
    if useStubsDecision i then
      match chooseSdkVersion stubsInfos apexSdkVersion with
      | .error e => .error e
      | .ok chosen => .ok (chosen.sharedLibraryInfo, chosen.flagExporterInfo, true)
    else .ok (sharedLibraryInfo, depExporterInfo, false)
  else .ok (sharedLibraryInfo, depExporterInfo, false)

/-- **C3** — stub-vs-implementation selection follows the ordered decision
table: (1) an LLNDK (stubs-building) producer with a vendor/product consumer
not building for the platform image selects the stub; (2) for a
platform-image consumer the stub is selected only when the producer is in
some APEX and the consumer is not bundled (test-for) with an APEX containing
the producer; (3) otherwise, for a consumer going into APEXes, the stub is
selected iff the producer is not directly in all of the consumer's APEXes;
and when the stub is selected on a non-explicitly-versioned edge with a
non-empty stub table, stub version selection runs against the consumer's
ceiling, its failure failing the resolution and its success linking the
chosen stub's artifacts and flags. -/
theorem useStubsDecision_spec (i : StubDecisionInput) :
    (i.depBuildStubs = true → i.consumerUseVndk = true → i.isForPlatform = false →
      useStubsDecision i = true)
    ∧ (i.isForPlatform = true → useStubsDecision i = true →
        i.depAnyVariantDirectlyInAnyApex = true
        ∧ ∀ contents ∈ i.testForApexContents, i.depName ∉ contents)
    ∧ (¬(i.depBuildStubs = true ∧ i.consumerUseVndk = true) →
        i.isForPlatform = false →
        (useStubsDecision i = true ↔ i.directlyInAllApexes = false))
    ∧ (∀ (ev : Bool) (sli : SharedLibraryInfo) (dei : FlagExporterInfo)
        (stubs : List SharedLibraryStubsInfo) (ceil : ApiLevel),
        ev = false → stubs ≠ [] → useStubsDecision i = true →
        ((∀ e, chooseSdkVersion stubs ceil = .error e →
            resolveSharedDep i ev sli dei stubs ceil = .error e)
          ∧ ∀ s, chooseSdkVersion stubs ceil = .ok s →
              resolveSharedDep i ev sli dei stubs ceil
                = .ok (s.sharedLibraryInfo, s.flagExporterInfo, true))) := by
  refine ⟨?_, ?_, ?_, ?_⟩
  · intro h1 h2 h3
    simp [useStubsDecision, h1, h2, h3]
  · intro hp hu
    by_cases hb : i.depBuildStubs = true ∧ i.consumerUseVndk = true
    · simp [useStubsDecision, hb.1, hb.2, hp] at hu
    · have hb' : (i.depBuildStubs && i.consumerUseVndk) = false := by
        cases hx : i.depBuildStubs <;> cases hy : i.consumerUseVndk <;>
          simp_all
      simp only [useStubsDecision, hb', Bool.false_eq_true, if_false, hp,
        if_true] at hu
      constructor
      · by_contra hna
        have : i.depAnyVariantDirectlyInAnyApex = false := by
          cases hx : i.depAnyVariantDirectlyInAnyApex
          · rfl
          · exact absurd hx hna
        simp [this] at hu
      · intro contents hc hmem
        have hany : i.testForApexContents.any
            (fun contents => i.depName ∈ contents) = true := by
          rw [List.any_eq_true]
          exact ⟨contents, hc, by simp [hmem]⟩
        simp [hany] at hu
  · intro hb hp
    have hb' : (i.depBuildStubs && i.consumerUseVndk) = false := by
      cases hx : i.depBuildStubs <;> cases hy : i.consumerUseVndk <;> simp_all
    simp [useStubsDecision, hb', hp]
  · intro ev sli dei stubs ceil hev hstubs hdec
    have hlen : stubs.length > 0 := List.length_pos.mpr hstubs
    constructor
    · intro e he
      simp [resolveSharedDep, hev, hlen, hdec, he]
    · intro s hs
      simp [resolveSharedDep, hev, hlen, hdec, hs]

/-- Witness for C3: an LLNDK producer with a vendor consumer in an APEX
selects the stub, and version selection then links the chosen stub. -/
theorem useStubsDecision_spec_witness :
    useStubsDecision ⟨true, true, false, false, false, [], "libdep", true⟩ = true
    ∧ resolveSharedDep ⟨true, true, false, false, false, [], "libdep", true⟩
        false ⟨"impl.so", none, none⟩ ⟨[], []⟩ [mkStubEntry "29"] (.finite 30)
      = .ok ((mkStubEntry "29").sharedLibraryInfo,
             (mkStubEntry "29").flagExporterInfo, true) := by
  have h1 := (useStubsDecision_spec
    ⟨true, true, false, false, false, [], "libdep", true⟩).1 rfl rfl rfl
  refine ⟨h1, ?_⟩
  exact ((useStubsDecision_spec
    ⟨true, true, false, false, false, [], "libdep", true⟩).2.2.2
    false ⟨"impl.so", none, none⟩ ⟨[], []⟩ [mkStubEntry "29"] (.finite 30)
    rfl (by simp) h1).2 (mkStubEntry "29") (by rfl)

/-! ## Dependency name rewriting in `DepsMutator` (cc.go:1685-1966)

The suffix constants and the configuration tables (`ndkKnownLibs`,
`isLlndkLibrary`, the vendor snapshot maps, `vendorPublicLibraries`) are
defined outside `src/`; their values are carried in a context record, the
per-architecture snapshot map already keyed for the consumer's
architecture.  The suffix values are modelled from the spec (their exact
text does not matter to the claims). -/

/-- Modelled from the spec: the NDK stub-variant module suffix (defined
outside `src/`). -/
def ndkLibrarySuffix : String := ".ndk"

/-- Modelled from the spec: the LLNDK stub module suffix (defined outside
`src/`). -/
def llndkLibrarySuffix : String := ".llndk"

/-- Modelled from the spec: the vendor-public-library suffix (defined
outside `src/`). -/
def vendorPublicLibrarySuffix : String := ".vendorpublic"

/-- The configuration and consumer state read by the shared-library name
rewriting of `DepsMutator` (cc.go:1720-1776). -/
structure RewriteCtx where
  /-- `ctx.useSdk()`. -/
  useSdk : Bool
  /-- `ctx.useVndk()`. -/
  useVndk : Bool
  /-- `ctx.Platform() || ctx.ProductSpecific()`. -/
  platformOrProduct : Bool
  /-- `ndkKnownLibs`. -/
  ndkKnownLibs : List String
  /-- the `isLlndkLibrary` set. -/
  llndkLibraries : List String
  /-- `c.VndkVersion() == actx.DeviceConfig().VndkVersion()`. -/
  vndkVersionMatches : Bool
  /-- `vendorSnapshotSharedLibs`, keyed for the consumer's architecture. -/
  vendorSnapshotSharedLibs : List (String × String)
  /-- `vendorPublicLibraries`. -/
  vendorPublicLibraries : List String
  /-- the modules visible to `actx.OtherModuleExists`. -/
  existingModules : List String
deriving DecidableEq, Repr

/-- `rewriteVendorLibs` (cc.go:1723-1738): LLNDK names get the LLNDK stub
suffix; otherwise, only when the consumer's VNDK version matches the board
version, the vendor snapshot map may substitute a frozen artifact name. -/
def rewriteVendorLibs (rc : RewriteCtx) (lib : String) : String :=
  if lib ∈ rc.llndkLibraries then lib ++ llndkLibrarySuffix
  else if ¬ rc.vndkVersionMatches then lib
  else
    match rc.vendorSnapshotSharedLibs.lookup lib with
    | some snapshot => snapshot
    | none => lib

/-- One step of the `rewriteLibs` loop (cc.go:1740-1766): the accumulator
holds `(nonvariantLibs, variantLibs)`. -/
def rewriteLibsStep (rc : RewriteCtx) (acc : List String × List String)
    (entry : String) : List String × List String :=
  let name := (stubsLibNameAndVersionS entry).1
  if rc.useSdk = true ∧ name ∈ rc.ndkKnownLibs then
    (acc.1, acc.2 ++ [name ++ ndkLibrarySuffix])
  else if rc.useVndk = true then
    (acc.1 ++ [rewriteVendorLibs rc entry], acc.2)
  else if rc.platformOrProduct = true ∧ name ∈ rc.vendorPublicLibraries then
    if (name ++ vendorPublicLibrarySuffix) ∈ rc.existingModules then
      (acc.1 ++ [name ++ vendorPublicLibrarySuffix], acc.2)
    else
      (acc.1 ++ [name], acc.2)
  else
    (acc.1 ++ [entry], acc.2)

/-- `rewriteLibs` (cc.go:1740-1766): scan a shared-library name list into
`(nonvariantLibs, variantLibs)`. -/
def rewriteLibs (rc : RewriteCtx) (list : List String) :
    List String × List String :=
  list.foldl (rewriteLibsStep rc) ([], [])

/-- An NDK stub dependency edge: the rewritten module name plus the version
variation it is added with (cc.go:1944-1950). -/
structure NdkStubEdge where
  name : String
  versionVariation : String
deriving DecidableEq, Repr

/-- The NDK stub edges added for the variant libs (cc.go:1946-1950): each
variant lib gets one shared edge with the consumer's SDK version as the
version variation. -/
def ndkStubEdges (sdkVersion : String) (variantLibs : List String) :
    List NdkStubEdge :=
  variantLibs.map (fun l => ⟨l, sdkVersion⟩)

theorem rewriteLibsStep_shape (rc : RewriteCtx) (acc : List String × List String)
    (entry : String) :
    rewriteLibsStep rc acc entry
      = (acc.1 ++ (rewriteLibsStep rc ([], []) entry).1,
         acc.2 ++ (rewriteLibsStep rc ([], []) entry).2) := by
  unfold rewriteLibsStep
  dsimp only
  split_ifs <;> simp

theorem rewriteLibs_foldl_general (rc : RewriteCtx) :
    ∀ (list : List String) (a b : List String),
      list.foldl (rewriteLibsStep rc) (a, b)
        = (a ++ (rewriteLibs rc list).1, b ++ (rewriteLibs rc list).2) := by
  intro list
  induction list with
  | nil => intro a b; simp [rewriteLibs]
  | cons e es ih =>
    intro a b
    show es.foldl (rewriteLibsStep rc) (rewriteLibsStep rc (a, b) e)
      = (a ++ (es.foldl (rewriteLibsStep rc)
          (rewriteLibsStep rc ([], []) e)).1,
         b ++ (es.foldl (rewriteLibsStep rc)
          (rewriteLibsStep rc ([], []) e)).2)
    rw [rewriteLibsStep_shape rc (a, b) e]
    generalize rewriteLibsStep rc ([], []) e = X
    obtain ⟨p, q⟩ := X
    dsimp only
    rw [ih (a ++ p) (b ++ q), ih p q]
    simp [List.append_assoc, rewriteLibs]

/-- **C7 (amended)** — NDK stub redirection: `rewriteLibs` processes entries
independently (append homomorphism); an entry whose `#version`-stripped name
is a known NDK library is redirected, *when the consumer builds against the
SDK*, to the suffixed NDK stub variant in the variant list (later added with
the consumer's SDK version as the version variation); an entry matching no
rewriting rule passes through unchanged, `#version` suffix preserved. -/
theorem rewriteLibs_spec (rc : RewriteCtx) :
    (∀ xs ys, rewriteLibs rc (xs ++ ys)
      = ((rewriteLibs rc xs).1 ++ (rewriteLibs rc ys).1,
         (rewriteLibs rc xs).2 ++ (rewriteLibs rc ys).2))
    ∧ (∀ entry, rc.useSdk = true →
        (stubsLibNameAndVersionS entry).1 ∈ rc.ndkKnownLibs →
        rewriteLibs rc [entry]
          = ([], [(stubsLibNameAndVersionS entry).1 ++ ndkLibrarySuffix]))
    ∧ (∀ entry, ¬(rc.useSdk = true ∧
          (stubsLibNameAndVersionS entry).1 ∈ rc.ndkKnownLibs) →
        rc.useVndk = false →
        ¬(rc.platformOrProduct = true ∧
          (stubsLibNameAndVersionS entry).1 ∈ rc.vendorPublicLibraries) →
        rewriteLibs rc [entry] = ([entry], []))
    ∧ (∀ entry version, rc.useSdk = true →
        (stubsLibNameAndVersionS entry).1 ∈ rc.ndkKnownLibs →
        ndkStubEdges version (rewriteLibs rc [entry]).2
          = [⟨(stubsLibNameAndVersionS entry).1 ++ ndkLibrarySuffix, version⟩]) := by
  have hone : ∀ entry, rewriteLibs rc [entry] = rewriteLibsStep rc ([], []) entry := by
    intro entry
    simp [rewriteLibs]
  refine ⟨?_, ?_, ?_, ?_⟩
  · intro xs ys
    show (xs ++ ys).foldl (rewriteLibsStep rc) ([], []) = _
    rw [List.foldl_append]
    have hxs : xs.foldl (rewriteLibsStep rc) ([], [])
        = ((rewriteLibs rc xs).1, (rewriteLibs rc xs).2) := rfl
    rw [hxs, rewriteLibs_foldl_general rc ys]
  · intro entry hsdk hknown
    rw [hone]
    simp [rewriteLibsStep, hsdk, hknown]
  · intro entry hndk hvndk hvp
    rw [hone]
    simp only [rewriteLibsStep]
    rw [if_neg hndk, if_neg (by simp [hvndk]), if_neg hvp]
    simp
  · intro entry version hsdk hknown
    rw [hone]
    simp [rewriteLibsStep, hsdk, hknown, ndkStubEdges]

/-- A consumer on Android that does not build against the SDK, with `libc`
a known NDK library. -/
def rcNoSdk : RewriteCtx := ⟨false, false, false, ["libc"], [], true, [], [], []⟩

/-- Counterexample to C7 as stated: on an Android target, `libc` matches a
known NDK library, yet no NDK stub redirection happens because the consumer
does not build against the SDK — the entry passes through unchanged and no
variant (stub) dependency is produced. -/
theorem rewriteLibs_counterexample :
    ("libc" : String) ∈ rcNoSdk.ndkKnownLibs
    ∧ rewriteLibs rcNoSdk ["libc"] = (["libc"], [])
    ∧ (rewriteLibs rcNoSdk ["libc"]).2 ≠ ["libc" ++ ndkLibrarySuffix] := by
  refine ⟨by simp [rcNoSdk], by rfl, by decide⟩

/-- Witness for C7 (amended): with `useSdk`, entry `libc#29` is redirected
to `libc.ndk` in the variant list, and its stub edge carries the consumer's
SDK version; without any matching rule, `libm#10` passes through. -/
theorem rewriteLibs_spec_witness :
    rewriteLibs ⟨true, false, false, ["libc"], [], true, [], [], []⟩ ["libc#29"]
      = ([], ["libc" ++ ndkLibrarySuffix])
    ∧ rewriteLibs ⟨true, false, false, ["libc"], [], true, [], [], []⟩ ["libm#10"]
      = (["libm#10"], [])
    ∧ ndkStubEdges "29"
        (rewriteLibs ⟨true, false, false, ["libc"], [], true, [], [], []⟩
          ["libc#29"]).2
      = [⟨"libc" ++ ndkLibrarySuffix, "29"⟩] :=
  ⟨(rewriteLibs_spec ⟨true, false, false, ["libc"], [], true, [], [], []⟩).2.1
      "libc#29" rfl (by decide),
   (rewriteLibs_spec ⟨true, false, false, ["libc"], [], true, [], [], []⟩).2.2.1
      "libm#10" (by decide) rfl (by decide),
   (rewriteLibs_spec ⟨true, false, false, ["libc"], [], true, [], [], []⟩).2.2.2
      "libc#29" "29" rfl (by decide)⟩

/-! ## Shared-library edge creation and late collapse (cc.go:1871-1905) -/

/-- The link-line position of a library dependency
(`libraryDependencyOrder`, cc.go:479-485; early is unused for the shared
lists built here). -/
inductive LibOrder where
  | normal
  | late
deriving DecidableEq, Repr

/-- A shared-library dependency edge as created by `DepsMutator`: the
version-stripped module name, the explicit version pin (empty when none),
and the order. -/
structure SharedEdge where
  name : String
  version : String
  order : LibOrder
deriving DecidableEq, Repr

/-- `syspropImplLibraries` substitution (cc.go:1880-1882): replace a sysprop
library by its implementation when mapped. -/
def syspropSubst (sysprop : List (String × String)) (lib : String) : String :=
  match sysprop.lookup lib with
  | some impl => impl
  | none => lib

/-- The `sharedLibNames` list accumulated in the `SharedLibs` loop
(cc.go:1872-1885): version-stripped names of the (sysprop-substituted)
entries. -/
def sharedLibNamesOf (sysprop : List (String × String))
    (sharedLibs : List String) : List String :=
  sharedLibs.map (fun lib => (stubsLibNameAndVersionS (syspropSubst sysprop lib)).1)

/-- The two shared-library loops of `DepsMutator` (cc.go:1874-1905): each
`SharedLibs` entry yields one normal-order edge at its stripped name and
version; each `LateSharedLibs` entry is skipped when it equals one of the
accumulated stripped names, otherwise yields one late-order unversioned
edge. -/
def processSharedLibs (sysprop : List (String × String))
    (sharedLibs lateSharedLibs : List String) : List SharedEdge :=
  let names := sharedLibNamesOf sysprop sharedLibs
  sharedLibs.map (fun lib =>
    let lib' := syspropSubst sysprop lib
    ⟨(stubsLibNameAndVersionS lib').1, (stubsLibNameAndVersionS lib').2,
      .normal⟩)
  ++ lateSharedLibs.filterMap (fun lib =>
    if lib ∈ names then none else some ⟨lib, "", .late⟩)

theorem normalEdges_filter_late (sysprop : List (String × String))
    (sharedLibs : List String) (lib : String) :
    (sharedLibs.map (fun l =>
        let l' := syspropSubst sysprop l
        (⟨(stubsLibNameAndVersionS l').1, (stubsLibNameAndVersionS l').2,
          .normal⟩ : SharedEdge))).filter
      (fun e => e.order == LibOrder.late && e.name == lib) = [] := by
  induction sharedLibs with
  | nil => rfl
  | cons l ls ih =>
    simp only [List.map_cons, List.filter_cons]
    have : ((⟨(stubsLibNameAndVersionS (syspropSubst sysprop l)).1,
        (stubsLibNameAndVersionS (syspropSubst sysprop l)).2,
        LibOrder.normal⟩ : SharedEdge).order == LibOrder.late
          && (⟨(stubsLibNameAndVersionS (syspropSubst sysprop l)).1,
            (stubsLibNameAndVersionS (syspropSubst sysprop l)).2,
            LibOrder.normal⟩ : SharedEdge).name == lib) = false := by
      simp
    rw [this]
    exact ih

/-- **C8** — late shared-library collapse: a late entry equal to the
version-stripped name of some (sysprop-substituted) entry of the shared
list yields no edge at all (no late edge with that name exists), and every
other late entry yields exactly one late-order shared edge (one per
occurrence). -/
theorem processSharedLibs_lateCollapse (sysprop : List (String × String))
    (sharedLibs lateSharedLibs : List String) (lib : String) :
    (lib ∈ sharedLibNamesOf sysprop sharedLibs →
      (processSharedLibs sysprop sharedLibs lateSharedLibs).filter
        (fun e => e.order == LibOrder.late && e.name == lib) = [])
    ∧ (lib ∉ sharedLibNamesOf sysprop sharedLibs →
      ((processSharedLibs sysprop sharedLibs lateSharedLibs).filter
        (fun e => e.order == LibOrder.late && e.name == lib)).length
        = lateSharedLibs.count lib) := by
  have hnorm := normalEdges_filter_late sysprop sharedLibs lib
  constructor
  · intro hmem
    simp only [processSharedLibs, List.filter_append, hnorm, List.nil_append]
    induction lateSharedLibs with
    | nil => rfl
    | cons l ls ih =>
      simp only [List.filterMap_cons]
      by_cases hl : l ∈ sharedLibNamesOf sysprop sharedLibs
      · rw [if_pos hl]
        exact ih
      · rw [if_neg hl]
        simp only [List.filter_cons]
        have hne : l ≠ lib := fun h => hl (h ▸ hmem)
        have : ((⟨l, "", LibOrder.late⟩ : SharedEdge).order == LibOrder.late
            && (⟨l, "", LibOrder.late⟩ : SharedEdge).name == lib) = false := by
          simp [hne]
        rw [this]
        exact ih
  · intro hmem
    simp only [processSharedLibs, List.filter_append, hnorm, List.nil_append]
    induction lateSharedLibs with
    | nil => rfl
    | cons l ls ih =>
      simp only [List.filterMap_cons]
      by_cases hl : l ∈ sharedLibNamesOf sysprop sharedLibs
      · rw [if_pos hl]
        have hne : l ≠ lib := fun h => hmem (h ▸ hl)
        rw [List.count_cons_of_ne (by exact fun h => hne h.symm) ls]
        exact ih
      · rw [if_neg hl]
        simp only [List.filter_cons]
        by_cases heq : l = lib
        · subst heq
          have : ((⟨l, "", LibOrder.late⟩ : SharedEdge).order == LibOrder.late
              && (⟨l, "", LibOrder.late⟩ : SharedEdge).name == l) = true := by
            simp
          rw [this]
          simp [ih]
        · have : ((⟨l, "", LibOrder.late⟩ : SharedEdge).order == LibOrder.late
              && (⟨l, "", LibOrder.late⟩ : SharedEdge).name == lib) = false := by
            simp [heq]
          rw [this]
          rw [List.count_cons_of_ne (by exact fun h => heq h.symm) ls]
          exact ih

/-- Witness for C8: with `libc#10` in the shared list, the late entry `libc`
is collapsed (no late edge), while the late entry `libm` yields exactly one
late edge. -/
theorem processSharedLibs_lateCollapse_witness :
    ((processSharedLibs [] ["libc#10"] ["libc", "libm"]).filter
        (fun e => e.order == LibOrder.late && e.name == "libc") = [])
    ∧ ((processSharedLibs [] ["libc#10"] ["libc", "libm"]).filter
        (fun e => e.order == LibOrder.late && e.name == "libm")).length
        = ["libc", "libm"].count "libm" :=
  ⟨(processSharedLibs_lateCollapse [] ["libc#10"] ["libc", "libm"] "libc").1
      (by decide),
   (processSharedLibs_lateCollapse [] ["libc#10"] ["libc", "libm"] "libm").2
      (by decide)⟩

/-! ## Vendor-snapshot rewriting and idempotence (cc.go:1785-1796, 1723-1738) -/

/-- `rewriteSnapshotLibs` (cc.go:1785-1796): substitute a frozen snapshot
artifact name only when the consumer's VNDK version matches the board
version and the map has an entry for the name (the map is the
per-architecture table for the consumer's architecture). -/
def rewriteSnapshotLibs (vndkVersionMatches : Bool)
    (snapshotMap : List (String × String)) (lib : String) : String :=
  if ¬ vndkVersionMatches then lib
  else
    match snapshotMap.lookup lib with
    | some snapshot => snapshot
    | none => lib

theorem lookup_mem {m : List (String × String)} {k v : String}
    (h : m.lookup k = some v) : (k, v) ∈ m := by
  induction m with
  | nil => simp [List.lookup] at h
  | cons a rest ih =>
    obtain ⟨k', v'⟩ := a
    by_cases hk : k = k'
    · subst hk
      simp [List.lookup] at h
      subst h
      exact List.mem_cons_self _ _
    · have hk' : (k == k') = false := by simp [hk]
      simp only [List.lookup, hk'] at h
      exact List.mem_cons_of_mem _ (ih h)

/-- Counterexample to C9 as stated: over the snapshot table
`[a ↦ b, b ↦ c]` (whose value `b` is itself a key), rewriting `a` twice
gives `c`, not `b`, so double rewriting is not a no-op for every snapshot
table. -/
theorem rewriteSnapshotLibs_counterexample :
    rewriteSnapshotLibs true [("a", "b"), ("b", "c")]
        (rewriteSnapshotLibs true [("a", "b"), ("b", "c")] "a")
      ≠ rewriteSnapshotLibs true [("a", "b"), ("b", "c")] "a" := by
  decide

/-- **C9 (amended)** — idempotent rewriting holds for snapshot tables whose
substituted names are not themselves keys: under that hypothesis
`rewriteSnapshotLibs` applied twice equals once, for every consumer VNDK
state and name; likewise `rewriteVendorLibs` is idempotent when suffixed
LLNDK names and snapshot values are neither LLNDK members nor snapshot
keys. -/
theorem snapshotRewrite_idempotent :
    (∀ (vmatch : Bool) (m : List (String × String)) (lib : String),
      (∀ kv ∈ m, m.lookup kv.2 = none) →
      rewriteSnapshotLibs vmatch m (rewriteSnapshotLibs vmatch m lib)
        = rewriteSnapshotLibs vmatch m lib)
    ∧ (∀ (rc : RewriteCtx) (lib : String),
      (∀ n ∈ rc.llndkLibraries,
        (n ++ llndkLibrarySuffix) ∉ rc.llndkLibraries
        ∧ rc.vendorSnapshotSharedLibs.lookup (n ++ llndkLibrarySuffix) = none) →
      (∀ kv ∈ rc.vendorSnapshotSharedLibs,
        kv.2 ∉ rc.llndkLibraries
        ∧ rc.vendorSnapshotSharedLibs.lookup kv.2 = none) →
      rewriteVendorLibs rc (rewriteVendorLibs rc lib)
        = rewriteVendorLibs rc lib) := by
  constructor
  · intro vmatch m lib hm
    cases vmatch with
    | false => simp [rewriteSnapshotLibs]
    | true =>
      simp only [rewriteSnapshotLibs, not_true_eq_false, if_false]
      cases hl : m.lookup lib with
      | none => simp [hl]
      | some s =>
        have hs := hm (lib, s) (lookup_mem hl)
        simp [hs]
  · intro rc lib h1 h2
    have hfix : ∀ x, x ∉ rc.llndkLibraries →
        rc.vendorSnapshotSharedLibs.lookup x = none →
        rewriteVendorLibs rc x = x := by
      intro x hx hlk
      simp only [rewriteVendorLibs, if_neg hx]
      by_cases hv : rc.vndkVersionMatches
      · simp [hv, hlk]
      · simp [hv]
    by_cases hl : lib ∈ rc.llndkLibraries
    · have hval : rewriteVendorLibs rc lib = lib ++ llndkLibrarySuffix := by
        simp only [rewriteVendorLibs, if_pos hl]
      rw [hval]
      exact hfix _ (h1 lib hl).1 (h1 lib hl).2
    · by_cases hv : rc.vndkVersionMatches
      · cases hsl : rc.vendorSnapshotSharedLibs.lookup lib with
        | none =>
          have hval : rewriteVendorLibs rc lib = lib := hfix lib hl hsl
          rw [hval]
          exact hval
        | some s =>
          have hval : rewriteVendorLibs rc lib = s := by
            simp only [rewriteVendorLibs, if_neg hl]
            simp [hv, hsl]
          rw [hval]
          exact hfix s (h2 (lib, s) (lookup_mem hsl)).1
            (h2 (lib, s) (lookup_mem hsl)).2
      · have hval : rewriteVendorLibs rc lib = lib := by
          simp only [rewriteVendorLibs, if_neg hl]
          simp [hv]
        rw [hval]
        exact hval

/-- Witness for C9 (amended): over the table `[libfoo ↦ libfoo.snap]`,
rewriting twice equals once for `libfoo`, and vendor rewriting is idempotent
for an LLNDK name. -/
theorem snapshotRewrite_idempotent_witness :
    rewriteSnapshotLibs true [("libfoo", "libfoo.snap")]
        (rewriteSnapshotLibs true [("libfoo", "libfoo.snap")] "libfoo")
      = rewriteSnapshotLibs true [("libfoo", "libfoo.snap")] "libfoo"
    ∧ rewriteVendorLibs ⟨false, true, false, [], ["libc"], true, [], [], []⟩
        (rewriteVendorLibs ⟨false, true, false, [], ["libc"], true, [], [], []⟩
          "libc")
      = rewriteVendorLibs ⟨false, true, false, [], ["libc"], true, [], [], []⟩
          "libc" :=
  ⟨snapshotRewrite_idempotent.1 true [("libfoo", "libfoo.snap")] "libfoo"
      (by decide),
   snapshotRewrite_idempotent.2 ⟨false, true, false, [], ["libc"], true, [], [], []⟩
      "libc" (by decide) (by decide)⟩

/-! ## Double-loadable checking (`checkDoubleLoadableLibraries`, cc.go:2114-2155)

The checker walks the dependency graph top-down from an LLNDK or
double-loadable shared library.  `ctx.WalkDeps` / `GetWalkPath` live outside
`src/`; modelled from the spec and the walker's contract: each module is
visited at most once (a visited set), the visit callback's boolean decides
whether the walk descends into the child's dependencies, and the reported
path is the root-to-child stack of the walk.  Modules are graph indices into
a list; an out-of-range index yields an inert default module.  The walker
recursion is bounded by a fuel initialised to the module count, which the
completeness lemmas show is never exhausted. -/

/-- The attributes of a module read by the double-loadable check. -/
structure DLModule where
  name : String
  isCcModule : Bool
  isSharedLibrary : Bool
  hasVendorVariant : Bool
  isVndkSp : Bool
  isLlndk : Bool
  doubleLoadable : Bool
  deps : List Nat
deriving DecidableEq, Repr

/-- The inert module an out-of-range index denotes. -/
def dlDefault : DLModule := ⟨"", false, false, false, false, false, false, []⟩

/-- Look a module up by graph index. -/
def getM (g : List DLModule) (i : Nat) : DLModule := g.getD i dlDefault

/-- The walk descends into this module's dependencies: a shared cc library
without a vendor variant (the `return true` case of `check`,
cc.go:2131-2133). -/
def walkThroughM (m : DLModule) : Bool :=
  m.isCcModule && m.isSharedLibrary && !m.hasVendorVariant

/-- A vendor-capable module that is allowed to be double loaded
(cc.go:2135). -/
def dlSafeM (m : DLModule) : Bool :=
  m.isVndkSp || m.isLlndk || m.doubleLoadable

/-- The offending case of `check` (cc.go:2139-2146): a shared cc library
with a vendor variant that is not VNDK-SP, LLNDK, or double-loadable. -/
def dlUnsafeM (m : DLModule) : Bool :=
  m.isCcModule && m.isSharedLibrary && m.hasVendorVariant && !(dlSafeM m)

/-- The error of `ModuleErrorf` at cc.go:2143-2145: the offending library's
name and the walk path's module names from the root to it. -/
structure DLError where
  offending : String
  path : List String
deriving DecidableEq, Repr

/-- The walker state: modules already seen, and the errors reported so
far. -/
structure WalkSt where
  visited : List Nat
  errors : List DLError
deriving DecidableEq, Repr

/-- One level of the dependency walk: process a list of children against the
`check` callback of cc.go:2119-2147, marking each fresh child visited and
descending (via `recurse`) into walk-through children. -/
def walkChildrenAux (g : List DLModule)
    (recurse : List Nat → List Nat → WalkSt → WalkSt) :
    List Nat → List Nat → WalkSt → WalkSt
  | [], _path, st => st
  | c :: rest, path, st =>
    if c ∈ st.visited then
      walkChildrenAux g recurse rest path st
    else
      let st1 : WalkSt := ⟨c :: st.visited, st.errors⟩
      let m := getM g c
      if m.isCcModule && m.isSharedLibrary then
        if !m.hasVendorVariant then
          walkChildrenAux g recurse rest path (recurse m.deps (path ++ [c]) st1)
        else if m.isVndkSp || m.isLlndk || m.doubleLoadable then
          walkChildrenAux g recurse rest path st1
        else
          walkChildrenAux g recurse rest path
            ⟨st1.visited, st1.errors
              ++ [⟨m.name, (path ++ [c]).map (fun i => (getM g i).name)⟩]⟩
      else
        walkChildrenAux g recurse rest path st1

/-- The fuel-bounded walk: with fuel `n + 1`, descending spends one unit;
with fuel `0`, a walk-through child is marked but not descended into (the
completeness lemmas show this never happens from the initial fuel). -/
def walkChildren (g : List DLModule) : Nat → List Nat → List Nat → WalkSt → WalkSt
  | 0 => walkChildrenAux g (fun _deps _path st => st)
  | fuel + 1 => walkChildrenAux g (walkChildren g fuel)

/-- `checkDoubleLoadableLibraries` (cc.go:2118-2155): from an LLNDK or
explicitly double-loadable shared library, walk the dependencies and collect
the errors. -/
def checkDoubleLoadableLibraries (g : List DLModule) (root : Nat) : List DLError :=
  let m := getM g root
  if m.isCcModule && m.isSharedLibrary && (m.isLlndk || m.doubleLoadable) then
    (walkChildren g g.length m.deps [root] ⟨[], []⟩).errors
  else []

/-- A dependency chain: `isChain g s l` says consecutive membership in
`deps` starting from `s` along `l`. -/
def isChain (g : List DLModule) : Nat → List Nat → Prop
  | _, [] => True
  | s, c :: rest => c ∈ (getM g s).deps ∧ isChain g c rest

/-- The number of distinct in-range indices in a visited list. -/
def vcount (g : List DLModule) (v : List Nat) : Nat :=
  (v.filter (fun i => decide (i < g.length))).length

/-- The fuel budget invariant: visited indices are distinct and the
remaining fuel covers the unvisited in-range modules. -/
def WalkInv (g : List DLModule) (fuel : Nat) (st : WalkSt) : Prop :=
  st.visited.Nodup ∧ g.length ≤ fuel + vcount g st.visited

/-! ### Basic walker lemmas -/

theorem getM_out_of_range {g : List DLModule} {c : Nat} (h : g.length ≤ c) :
    getM g c = dlDefault := List.getD_eq_default g dlDefault h

theorem lt_length_of_isCcModule {g : List DLModule} {c : Nat}
    (h : (getM g c).isCcModule = true) : c < g.length := by
  by_contra hc
  rw [getM_out_of_range (Nat.le_of_not_lt hc)] at h
  simp [dlDefault] at h

theorem vcount_cons_ge (g : List DLModule) (c : Nat) (v : List Nat) :
    vcount g v ≤ vcount g (c :: v) := by
  simp only [vcount, List.filter_cons]
  split
  · simp
  · exact Nat.le_refl _

theorem vcount_cons_of_lt {g : List DLModule} {c : Nat} (v : List Nat)
    (h : c < g.length) : vcount g (c :: v) = vcount g v + 1 := by
  simp [vcount, List.filter_cons, h]

theorem vcount_le_length {g : List DLModule} {v : List Nat} (h : v.Nodup) :
    vcount g v ≤ g.length := by
  have hnd : (v.filter (fun i => decide (i < g.length))).Nodup := h.filter _
  have hsub : (v.filter (fun i => decide (i < g.length))).toFinset
      ⊆ Finset.range g.length := by
    intro x hx
    simp only [List.mem_toFinset, List.mem_filter, decide_eq_true_eq] at hx
    exact Finset.mem_range.mpr hx.2
  calc vcount g v = (v.filter (fun i => decide (i < g.length))).toFinset.card :=
        (List.toFinset_card_of_nodup hnd).symm
    _ ≤ (Finset.range g.length).card := Finset.card_le_card hsub
    _ = g.length := Finset.card_range _

theorem fuelZero_no_fresh_cc {g : List DLModule} {st : WalkSt} {c : Nat}
    (hInv : WalkInv g 0 st) (hfresh : c ∉ st.visited)
    (hcc : (getM g c).isCcModule = true) : False := by
  have hlt : c < g.length := lt_length_of_isCcModule hcc
  have hnd : (c :: st.visited).Nodup := List.nodup_cons.mpr ⟨hfresh, hInv.1⟩
  have h1 : vcount g (c :: st.visited) = vcount g st.visited + 1 :=
    vcount_cons_of_lt st.visited hlt
  have h2 : vcount g (c :: st.visited) ≤ g.length := vcount_le_length hnd
  have h3 : g.length ≤ 0 + vcount g st.visited := hInv.2
  omega

theorem walkChildrenAux_visited_mono (g : List DLModule)
    (recurse : List Nat → List Nat → WalkSt → WalkSt)
    (hrec : ∀ ds p s, s.visited ⊆ (recurse ds p s).visited) :
    ∀ (cs path : List Nat) (st : WalkSt),
      st.visited ⊆ (walkChildrenAux g recurse cs path st).visited := by
  intro cs
  induction cs with
  | nil => intro path st; exact fun x hx => hx
  | cons c rest ih =>
    intro path st
    simp only [walkChildrenAux]
    split_ifs with h1 h2 h3 h4
    · exact ih path st
    · intro x hx
      exact ih path _ (hrec _ _ _ (List.mem_cons_of_mem c hx))
    · intro x hx
      exact ih path _ (List.mem_cons_of_mem c hx)
    · intro x hx
      exact ih path _ (List.mem_cons_of_mem c hx)
    · intro x hx
      exact ih path _ (List.mem_cons_of_mem c hx)

theorem walkChildrenAux_errors_mono (g : List DLModule)
    (recurse : List Nat → List Nat → WalkSt → WalkSt)
    (hrec : ∀ ds p s, s.errors ⊆ (recurse ds p s).errors) :
    ∀ (cs path : List Nat) (st : WalkSt),
      st.errors ⊆ (walkChildrenAux g recurse cs path st).errors := by
  intro cs
  induction cs with
  | nil => intro path st; exact fun x hx => hx
  | cons c rest ih =>
    intro path st
    simp only [walkChildrenAux]
    split_ifs with h1 h2 h3 h4
    · exact ih path st
    · intro x hx
      exact ih path _ (hrec _ _ _ hx)
    · intro x hx
      exact ih path _ hx
    · intro x hx
      refine ih path _ ?_
      exact List.mem_append_left _ hx
    · intro x hx
      exact ih path _ hx

theorem walkChildrenAux_children_visited (g : List DLModule)
    (recurse : List Nat → List Nat → WalkSt → WalkSt)
    (hrec : ∀ ds p s, s.visited ⊆ (recurse ds p s).visited) :
    ∀ (cs path : List Nat) (st : WalkSt) (c : Nat), c ∈ cs →
      c ∈ (walkChildrenAux g recurse cs path st).visited := by
  intro cs
  induction cs with
  | nil => intro path st c hc; exact absurd hc (List.not_mem_nil c)
  | cons c0 rest ih =>
    intro path st c hc
    have hmono := walkChildrenAux_visited_mono g recurse hrec
    rcases List.mem_cons.mp hc with hc | hc
    · subst hc
      simp only [walkChildrenAux]
      split_ifs with h1 h2 h3 h4
      · exact hmono rest path st h1
      · exact hmono rest path _
          (hrec _ _ _ (List.mem_cons_self c st.visited))
      · exact hmono rest path _ (List.mem_cons_self c st.visited)
      · exact hmono rest path _ (List.mem_cons_self c st.visited)
      · exact hmono rest path _ (List.mem_cons_self c st.visited)
    · simp only [walkChildrenAux]
      split_ifs with h1 h2 h3 h4
      · exact ih path st c hc
      · exact ih path _ c hc
      · exact ih path _ c hc
      · exact ih path _ c hc
      · exact ih path _ c hc

theorem walkChildrenAux_nodup (g : List DLModule)
    (recurse : List Nat → List Nat → WalkSt → WalkSt)
    (hrecN : ∀ ds p s, s.visited.Nodup → (recurse ds p s).visited.Nodup) :
    ∀ (cs path : List Nat) (st : WalkSt), st.visited.Nodup →
      (walkChildrenAux g recurse cs path st).visited.Nodup := by
  intro cs
  induction cs with
  | nil => intro path st h; exact h
  | cons c rest ih =>
    intro path st h
    simp only [walkChildrenAux]
    split_ifs with h1 h2 h3 h4
    · exact ih path st h
    · exact ih path _ (hrecN _ _ _ (List.nodup_cons.mpr ⟨h1, h⟩))
    · exact ih path _ (List.nodup_cons.mpr ⟨h1, h⟩)
    · exact ih path _ (List.nodup_cons.mpr ⟨h1, h⟩)
    · exact ih path _ (List.nodup_cons.mpr ⟨h1, h⟩)

theorem walkChildrenAux_vcount (g : List DLModule)
    (recurse : List Nat → List Nat → WalkSt → WalkSt)
    (hrecV : ∀ ds p s, vcount g s.visited ≤ vcount g (recurse ds p s).visited) :
    ∀ (cs path : List Nat) (st : WalkSt),
      vcount g st.visited ≤ vcount g (walkChildrenAux g recurse cs path st).visited := by
  intro cs
  induction cs with
  | nil => intro path st; exact Nat.le_refl _
  | cons c rest ih =>
    intro path st
    simp only [walkChildrenAux]
    split_ifs with h1 h2 h3 h4
    · exact ih path st
    · refine Nat.le_trans (vcount_cons_ge g c st.visited) ?_
      refine Nat.le_trans
        (hrecV (getM g c).deps (path ++ [c]) ⟨c :: st.visited, st.errors⟩) ?_
      exact ih path _
    · refine Nat.le_trans (vcount_cons_ge g c st.visited) ?_
      exact ih path ⟨c :: st.visited, st.errors⟩
    · refine Nat.le_trans (vcount_cons_ge g c st.visited) ?_
      exact ih path ⟨c :: st.visited, st.errors
        ++ [⟨(getM g c).name, (path ++ [c]).map (fun i => (getM g i).name)⟩]⟩
    · refine Nat.le_trans (vcount_cons_ge g c st.visited) ?_
      exact ih path ⟨c :: st.visited, st.errors⟩

theorem walkChildren_visited_mono (g : List DLModule) :
    ∀ (fuel : Nat) (cs path : List Nat) (st : WalkSt),
      st.visited ⊆ (walkChildren g fuel cs path st).visited := by
  intro fuel
  induction fuel with
  | zero =>
    exact walkChildrenAux_visited_mono g _ (fun _ _ _ x hx => hx)
  | succ fuel ih =>
    exact walkChildrenAux_visited_mono g _ (fun ds p s => ih ds p s)

theorem walkChildren_errors_mono (g : List DLModule) :
    ∀ (fuel : Nat) (cs path : List Nat) (st : WalkSt),
      st.errors ⊆ (walkChildren g fuel cs path st).errors := by
  intro fuel
  induction fuel with
  | zero =>
    exact walkChildrenAux_errors_mono g _ (fun _ _ _ x hx => hx)
  | succ fuel ih =>
    exact walkChildrenAux_errors_mono g _ (fun ds p s => ih ds p s)

theorem walkChildren_children_visited (g : List DLModule) :
    ∀ (fuel : Nat) (cs path : List Nat) (st : WalkSt) (c : Nat), c ∈ cs →
      c ∈ (walkChildren g fuel cs path st).visited := by
  intro fuel
  cases fuel with
  | zero =>
    exact walkChildrenAux_children_visited g _ (fun _ _ _ x hx => hx)
  | succ fuel =>
    exact walkChildrenAux_children_visited g _
      (fun ds p s => walkChildren_visited_mono g fuel ds p s)

theorem walkChildren_nodup (g : List DLModule) :
    ∀ (fuel : Nat) (cs path : List Nat) (st : WalkSt), st.visited.Nodup →
      (walkChildren g fuel cs path st).visited.Nodup := by
  intro fuel
  induction fuel with
  | zero =>
    exact walkChildrenAux_nodup g _ (fun _ _ _ h => h)
  | succ fuel ih =>
    exact walkChildrenAux_nodup g _ (fun ds p s => ih ds p s)

theorem walkChildren_vcount (g : List DLModule) :
    ∀ (fuel : Nat) (cs path : List Nat) (st : WalkSt),
      vcount g st.visited ≤ vcount g (walkChildren g fuel cs path st).visited := by
  intro fuel
  induction fuel with
  | zero =>
    exact walkChildrenAux_vcount g _ (fun _ _ _ => Nat.le_refl _)
  | succ fuel ih =>
    exact walkChildrenAux_vcount g _ (fun ds p s => ih ds p s)

/-! ### Step equations for the walker -/

theorem walkChildren_nil (g : List DLModule) (fuel : Nat) (path : List Nat)
    (st : WalkSt) : walkChildren g fuel [] path st = st := by
  cases fuel <;> rfl

theorem walkChildren_cons_mem {g : List DLModule} {fuel c : Nat}
    {rest path : List Nat} {st : WalkSt} (h : c ∈ st.visited) :
    walkChildren g fuel (c :: rest) path st
      = walkChildren g fuel rest path st := by
  cases fuel with
  | zero =>
    show walkChildrenAux g _ (c :: rest) path st = walkChildrenAux g _ rest path st
    simp only [walkChildrenAux, if_pos h]
  | succ fuel =>
    show walkChildrenAux g _ (c :: rest) path st = walkChildrenAux g _ rest path st
    simp only [walkChildrenAux, if_pos h]

theorem walkChildren_succ_cons_walkThrough {g : List DLModule} {fuel c : Nat}
    {rest path : List Nat} {st : WalkSt} (h1 : c ∉ st.visited)
    (h2 : ((getM g c).isCcModule && (getM g c).isSharedLibrary) = true)
    (h3 : (getM g c).hasVendorVariant = false) :
    walkChildren g (fuel + 1) (c :: rest) path st
      = walkChildren g (fuel + 1) rest path
          (walkChildren g fuel (getM g c).deps (path ++ [c])
            ⟨c :: st.visited, st.errors⟩) := by
  show walkChildrenAux g _ (c :: rest) path st = _
  simp only [walkChildrenAux, if_neg h1, h2, h3]
  rfl

theorem walkChildren_zero_cons_walkThrough {g : List DLModule} {c : Nat}
    {rest path : List Nat} {st : WalkSt} (h1 : c ∉ st.visited)
    (h2 : ((getM g c).isCcModule && (getM g c).isSharedLibrary) = true)
    (h3 : (getM g c).hasVendorVariant = false) :
    walkChildren g 0 (c :: rest) path st
      = walkChildren g 0 rest path ⟨c :: st.visited, st.errors⟩ := by
  show walkChildrenAux g _ (c :: rest) path st = _
  simp only [walkChildrenAux, if_neg h1, h2, h3]
  rfl

theorem walkChildren_cons_safe {g : List DLModule} {fuel c : Nat}
    {rest path : List Nat} {st : WalkSt} (h1 : c ∉ st.visited)
    (h2 : ((getM g c).isCcModule && (getM g c).isSharedLibrary) = true)
    (h3 : (getM g c).hasVendorVariant = true)
    (h4 : dlSafeM (getM g c) = true) :
    walkChildren g fuel (c :: rest) path st
      = walkChildren g fuel rest path ⟨c :: st.visited, st.errors⟩ := by
  have h4' : ((getM g c).isVndkSp || (getM g c).isLlndk
      || (getM g c).doubleLoadable) = true := h4
  cases fuel with
  | zero =>
    show walkChildrenAux g _ (c :: rest) path st = _
    simp only [walkChildrenAux, if_neg h1, h2, h3, h4']
    rfl
  | succ fuel =>
    show walkChildrenAux g _ (c :: rest) path st = _
    simp only [walkChildrenAux, if_neg h1, h2, h3, h4']
    rfl

theorem walkChildren_cons_offending {g : List DLModule} {fuel c : Nat}
    {rest path : List Nat} {st : WalkSt} (h1 : c ∉ st.visited)
    (h2 : ((getM g c).isCcModule && (getM g c).isSharedLibrary) = true)
    (h3 : (getM g c).hasVendorVariant = true)
    (h4 : dlSafeM (getM g c) = false) :
    walkChildren g fuel (c :: rest) path st
      = walkChildren g fuel rest path ⟨c :: st.visited, st.errors
          ++ [⟨(getM g c).name,
              (path ++ [c]).map (fun i => (getM g i).name)⟩]⟩ := by
  have h4' : ((getM g c).isVndkSp || (getM g c).isLlndk
      || (getM g c).doubleLoadable) = false := h4
  cases fuel with
  | zero =>
    show walkChildrenAux g _ (c :: rest) path st = _
    simp only [walkChildrenAux, if_neg h1, h2, h3, h4']
    rfl
  | succ fuel =>
    show walkChildrenAux g _ (c :: rest) path st = _
    simp only [walkChildrenAux, if_neg h1, h2, h3, h4']
    rfl

theorem walkChildren_cons_noncc {g : List DLModule} {fuel c : Nat}
    {rest path : List Nat} {st : WalkSt} (h1 : c ∉ st.visited)
    (h2 : ((getM g c).isCcModule && (getM g c).isSharedLibrary) = false) :
    walkChildren g fuel (c :: rest) path st
      = walkChildren g fuel rest path ⟨c :: st.visited, st.errors⟩ := by
  cases fuel with
  | zero =>
    show walkChildrenAux g _ (c :: rest) path st = _
    simp only [walkChildrenAux, if_neg h1, h2]
    rfl
  | succ fuel =>
    show walkChildrenAux g _ (c :: rest) path st = _
    simp only [walkChildrenAux, if_neg h1, h2]
    rfl

/-! ### Fuel-budget lemmas and the expansion property -/

theorem fuelZero_fresh_not_valid {g : List DLModule} {st : WalkSt} {c : Nat}
    (hInv : WalkInv g 0 st) (hfresh : c ∉ st.visited) : ¬ c < g.length := by
  intro hlt
  have hnd : (c :: st.visited).Nodup := List.nodup_cons.mpr ⟨hfresh, hInv.1⟩
  have h1 : vcount g (c :: st.visited) = vcount g st.visited + 1 :=
    vcount_cons_of_lt st.visited hlt
  have h2 : vcount g (c :: st.visited) ≤ g.length := vcount_le_length hnd
  have h3 : g.length ≤ 0 + vcount g st.visited := hInv.2
  omega

theorem walkInv_mark {g : List DLModule} {fuel c : Nat} {st : WalkSt}
    (hInv : WalkInv g fuel st) (hfresh : c ∉ st.visited) (errs : List DLError) :
    WalkInv g fuel ⟨c :: st.visited, errs⟩ := by
  refine ⟨List.nodup_cons.mpr ⟨hfresh, hInv.1⟩, ?_⟩
  have h1 := vcount_cons_ge g c st.visited
  have h2 := hInv.2
  show g.length ≤ fuel + vcount g (c :: st.visited)
  omega

theorem walkInv_mark_cc {g : List DLModule} {fuel c : Nat} {st : WalkSt}
    (hInv : WalkInv g (fuel + 1) st) (hfresh : c ∉ st.visited)
    (hcc : (getM g c).isCcModule = true) (errs : List DLError) :
    WalkInv g fuel ⟨c :: st.visited, errs⟩ := by
  refine ⟨List.nodup_cons.mpr ⟨hfresh, hInv.1⟩, ?_⟩
  have hlt : c < g.length := lt_length_of_isCcModule hcc
  have h1 : vcount g (c :: st.visited) = vcount g st.visited + 1 :=
    vcount_cons_of_lt st.visited hlt
  have h2 := hInv.2
  show g.length ≤ fuel + vcount g (c :: st.visited)
  omega

theorem walkInv_after {g : List DLModule} {f : Nat} {st : WalkSt}
    (hInv : WalkInv g f st) (f2 : Nat) (cs path : List Nat) :
    WalkInv g f (walkChildren g f2 cs path st) := by
  refine ⟨walkChildren_nodup g f2 cs path st hInv.1, ?_⟩
  have h1 := walkChildren_vcount g f2 cs path st
  have h2 := hInv.2
  omega

theorem walkInv_relax {g : List DLModule} {f : Nat} {st : WalkSt}
    (hInv : WalkInv g f st) : WalkInv g (f + 1) st := by
  refine ⟨hInv.1, ?_⟩
  have h2 := hInv.2
  omega

theorem walkThroughM_false_of_noncc {m : DLModule}
    (h : (m.isCcModule && m.isSharedLibrary) = false) :
    walkThroughM m = false := by
  simp only [walkThroughM, h, Bool.false_and]

theorem walkThroughM_false_of_vv {m : DLModule}
    (h : m.hasVendorVariant = true) : walkThroughM m = false := by
  simp [walkThroughM, h]

theorem dlUnsafeM_false_of_novv {m : DLModule}
    (h : m.hasVendorVariant = false) : dlUnsafeM m = false := by
  simp [dlUnsafeM, h]

/-- Every walk-through module freshly visited during a walk whose fuel
satisfies the budget invariant has all its dependencies visited in the final
state. -/
theorem walkChildren_expansion (g : List DLModule) :
    ∀ (fuel : Nat) (cs path : List Nat) (st : WalkSt), WalkInv g fuel st →
      ∀ v, v ∈ (walkChildren g fuel cs path st).visited → v ∉ st.visited →
        walkThroughM (getM g v) = true →
        ∀ d ∈ (getM g v).deps, d ∈ (walkChildren g fuel cs path st).visited := by
  intro fuel
  induction fuel with
  | zero =>
    intro cs
    induction cs with
    | nil =>
      intro path st _hInv v hv hnv _hwt d _hd
      rw [walkChildren_nil] at hv
      exact absurd hv hnv
    | cons c rest ihc =>
      intro path st hInv v hv hnv hwt d hd
      by_cases h1 : c ∈ st.visited
      · rw [walkChildren_cons_mem h1] at hv ⊢
        exact ihc path st hInv v hv hnv hwt d hd
      · have hnotlt := fuelZero_fresh_not_valid hInv h1
        have hdef : getM g c = dlDefault :=
          getM_out_of_range (Nat.le_of_not_lt hnotlt)
        have h2 : ((getM g c).isCcModule && (getM g c).isSharedLibrary) = false := by
          rw [hdef]; rfl
        rw [walkChildren_cons_noncc h1 h2] at hv ⊢
        by_cases hvc : v = c
        · subst hvc
          rw [hdef] at hwt
          simp [walkThroughM, dlDefault] at hwt
        · have hnv1 : v ∉ (⟨c :: st.visited, st.errors⟩ : WalkSt).visited := by
            intro hm
            rcases List.mem_cons.mp hm with hm | hm
            · exact hvc hm
            · exact hnv hm
          exact ihc path _ (walkInv_mark hInv h1 st.errors) v hv hnv1 hwt d hd
  | succ fuel ihf =>
    intro cs
    induction cs with
    | nil =>
      intro path st _hInv v hv hnv _hwt d _hd
      rw [walkChildren_nil] at hv
      exact absurd hv hnv
    | cons c rest ihc =>
      intro path st hInv v hv hnv hwt d hd
      by_cases h1 : c ∈ st.visited
      · rw [walkChildren_cons_mem h1] at hv ⊢
        exact ihc path st hInv v hv hnv hwt d hd
      · by_cases h2 : ((getM g c).isCcModule && (getM g c).isSharedLibrary) = true
        · have hcc : (getM g c).isCcModule = true := by
            have h2x := h2
            simp only [Bool.and_eq_true] at h2x
            exact h2x.1
          by_cases h3 : (getM g c).hasVendorVariant = true
          · by_cases h4 : dlSafeM (getM g c) = true
            · rw [walkChildren_cons_safe h1 h2 h3 h4] at hv ⊢
              by_cases hvc : v = c
              · subst hvc
                rw [walkThroughM_false_of_vv h3] at hwt
                exact absurd hwt (by simp)
              · have hnv1 : v ∉ (⟨c :: st.visited, st.errors⟩ : WalkSt).visited := by
                  intro hm
                  rcases List.mem_cons.mp hm with hm | hm
                  · exact hvc hm
                  · exact hnv hm
                exact ihc path _ (walkInv_mark hInv h1 st.errors) v hv hnv1 hwt d hd
            · have h4' : dlSafeM (getM g c) = false := by
                cases hx : dlSafeM (getM g c)
                · rfl
                · exact absurd hx h4
              rw [walkChildren_cons_offending h1 h2 h3 h4'] at hv ⊢
              by_cases hvc : v = c
              · subst hvc
                rw [walkThroughM_false_of_vv h3] at hwt
                exact absurd hwt (by simp)
              · have hnv1 : v ∉ (⟨c :: st.visited, st.errors
                    ++ [⟨(getM g c).name,
                        (path ++ [c]).map (fun i => (getM g i).name)⟩]⟩ :
                      WalkSt).visited := by
                  intro hm
                  rcases List.mem_cons.mp hm with hm | hm
                  · exact hvc hm
                  · exact hnv hm
                exact ihc path _ (walkInv_mark hInv h1 _) v hv hnv1 hwt d hd
          · have h3' : (getM g c).hasVendorVariant = false := by
              cases hx : (getM g c).hasVendorVariant
              · rfl
              · exact absurd hx h3
            rw [walkChildren_succ_cons_walkThrough h1 h2 h3'] at hv ⊢
            have hInv1 : WalkInv g fuel
                (⟨c :: st.visited, st.errors⟩ : WalkSt) :=
              walkInv_mark_cc hInv h1 hcc st.errors
            have hInv2 : WalkInv g (fuel + 1)
                (walkChildren g fuel (getM g c).deps (path ++ [c])
                  ⟨c :: st.visited, st.errors⟩) :=
              walkInv_relax (walkInv_after hInv1 fuel _ _)
            by_cases hv2 : v ∈ (walkChildren g fuel (getM g c).deps
                (path ++ [c]) ⟨c :: st.visited, st.errors⟩).visited
            · by_cases hvc : v = c
              · subst hvc
                have hd2 : d ∈ (walkChildren g fuel (getM g v).deps
                    (path ++ [v]) ⟨v :: st.visited, st.errors⟩).visited :=
                  walkChildren_children_visited g fuel _ _ _ d hd
                exact walkChildren_visited_mono g (fuel + 1) rest path _ hd2
              · have hnv1 : v ∉ (⟨c :: st.visited, st.errors⟩ : WalkSt).visited := by
                  intro hm
                  rcases List.mem_cons.mp hm with hm | hm
                  · exact hvc hm
                  · exact hnv hm
                have hd2 := ihf (getM g c).deps (path ++ [c]) _ hInv1 v hv2
                  hnv1 hwt d hd
                exact walkChildren_visited_mono g (fuel + 1) rest path _ hd2
            · exact ihc path _ hInv2 v hv hv2 hwt d hd
        · have h2' : ((getM g c).isCcModule && (getM g c).isSharedLibrary)
              = false := by
            cases hx : ((getM g c).isCcModule && (getM g c).isSharedLibrary)
            · rfl
            · exact absurd hx h2
          rw [walkChildren_cons_noncc h1 h2'] at hv ⊢
          by_cases hvc : v = c
          · subst hvc
            rw [walkThroughM_false_of_noncc h2'] at hwt
            exact absurd hwt (by simp)
          · have hnv1 : v ∉ (⟨c :: st.visited, st.errors⟩ : WalkSt).visited := by
              intro hm
              rcases List.mem_cons.mp hm with hm | hm
              · exact hvc hm
              · exact hnv hm
            exact ihc path _ (walkInv_mark hInv h1 st.errors) v hv hnv1 hwt d hd

/-- Every unsafe module freshly visited during a walk gets an error naming
it. -/
theorem walkChildren_errorComplete (g : List DLModule) :
    ∀ (fuel : Nat) (cs path : List Nat) (st : WalkSt),
      ∀ v, v ∈ (walkChildren g fuel cs path st).visited → v ∉ st.visited →
        dlUnsafeM (getM g v) = true →
        ∃ e, e ∈ (walkChildren g fuel cs path st).errors
          ∧ e.offending = (getM g v).name := by
  intro fuel
  induction fuel with
  | zero =>
    intro cs
    induction cs with
    | nil =>
      intro path st v hv hnv _hu
      rw [walkChildren_nil] at hv
      exact absurd hv hnv
    | cons c rest ihc =>
      intro path st v hv hnv hu
      by_cases h1 : c ∈ st.visited
      · rw [walkChildren_cons_mem h1] at hv ⊢
        exact ihc path st v hv hnv hu
      · have hfresh1 : ∀ errs, v ≠ c →
            v ∉ (⟨c :: st.visited, (errs : List DLError)⟩ : WalkSt).visited := by
          intro errs hvc hm
          rcases List.mem_cons.mp hm with hm | hm
          · exact hvc hm
          · exact hnv hm
        by_cases h2 : ((getM g c).isCcModule && (getM g c).isSharedLibrary) = true
        · by_cases h3 : (getM g c).hasVendorVariant = true
          · by_cases h4 : dlSafeM (getM g c) = true
            · rw [walkChildren_cons_safe h1 h2 h3 h4] at hv ⊢
              by_cases hvc : v = c
              · subst hvc
                simp [dlUnsafeM, h4] at hu
              · exact ihc path _ v hv (hfresh1 st.errors hvc) hu
            · have h4' : dlSafeM (getM g c) = false := by
                cases hx : dlSafeM (getM g c)
                · rfl
                · exact absurd hx h4
              rw [walkChildren_cons_offending h1 h2 h3 h4'] at hv ⊢
              by_cases hvc : v = c
              · subst hvc
                refine ⟨⟨(getM g v).name,
                  (path ++ [v]).map (fun i => (getM g i).name)⟩, ?_, rfl⟩
                apply walkChildren_errors_mono g 0 rest path _
                exact List.mem_append_right _ (List.mem_singleton_self _)
              · exact ihc path _ v hv (hfresh1 _ hvc) hu
          · have h3' : (getM g c).hasVendorVariant = false := by
              cases hx : (getM g c).hasVendorVariant
              · rfl
              · exact absurd hx h3
            rw [walkChildren_zero_cons_walkThrough h1 h2 h3'] at hv ⊢
            by_cases hvc : v = c
            · subst hvc
              rw [dlUnsafeM_false_of_novv h3'] at hu
              exact absurd hu (by simp)
            · exact ihc path _ v hv (hfresh1 st.errors hvc) hu
        · have h2' : ((getM g c).isCcModule && (getM g c).isSharedLibrary)
              = false := by
            cases hx : ((getM g c).isCcModule && (getM g c).isSharedLibrary)
            · rfl
            · exact absurd hx h2
          rw [walkChildren_cons_noncc h1 h2'] at hv ⊢
          by_cases hvc : v = c
          · subst hvc
            have hcs : ((getM g v).isCcModule && (getM g v).isSharedLibrary)
                = true := by
              simp only [dlUnsafeM, Bool.and_eq_true] at hu
              simp [hu.1.1.1, hu.1.1.2]
            rw [h2'] at hcs
            exact absurd hcs (by simp)
          · exact ihc path _ v hv (hfresh1 st.errors hvc) hu
  | succ fuel ihf =>
    intro cs
    induction cs with
    | nil =>
      intro path st v hv hnv _hu
      rw [walkChildren_nil] at hv
      exact absurd hv hnv
    | cons c rest ihc =>
      intro path st v hv hnv hu
      by_cases h1 : c ∈ st.visited
      · rw [walkChildren_cons_mem h1] at hv ⊢
        exact ihc path st v hv hnv hu
      · have hfresh1 : ∀ errs, v ≠ c →
            v ∉ (⟨c :: st.visited, (errs : List DLError)⟩ : WalkSt).visited := by
          intro errs hvc hm
          rcases List.mem_cons.mp hm with hm | hm
          · exact hvc hm
          · exact hnv hm
        by_cases h2 : ((getM g c).isCcModule && (getM g c).isSharedLibrary) = true
        · by_cases h3 : (getM g c).hasVendorVariant = true
          · by_cases h4 : dlSafeM (getM g c) = true
            · rw [walkChildren_cons_safe h1 h2 h3 h4] at hv ⊢
              by_cases hvc : v = c
              · subst hvc
                simp [dlUnsafeM, h4] at hu
              · exact ihc path _ v hv (hfresh1 st.errors hvc) hu
            · have h4' : dlSafeM (getM g c) = false := by
                cases hx : dlSafeM (getM g c)
                · rfl
                · exact absurd hx h4
              rw [walkChildren_cons_offending h1 h2 h3 h4'] at hv ⊢
              by_cases hvc : v = c
              · subst hvc
                refine ⟨⟨(getM g v).name,
                  (path ++ [v]).map (fun i => (getM g i).name)⟩, ?_, rfl⟩
                apply walkChildren_errors_mono g (fuel + 1) rest path _
                exact List.mem_append_right _ (List.mem_singleton_self _)
              · exact ihc path _ v hv (hfresh1 _ hvc) hu
          · have h3' : (getM g c).hasVendorVariant = false := by
              cases hx : (getM g c).hasVendorVariant
              · rfl
              · exact absurd hx h3
            rw [walkChildren_succ_cons_walkThrough h1 h2 h3'] at hv ⊢
            by_cases hvc : v = c
            · subst hvc
              rw [dlUnsafeM_false_of_novv h3'] at hu
              exact absurd hu (by simp)
            · by_cases hv2 : v ∈ (walkChildren g fuel (getM g c).deps
                  (path ++ [c]) ⟨c :: st.visited, st.errors⟩).visited
              · obtain ⟨e, he, hoff⟩ := ihf (getM g c).deps (path ++ [c]) _
                  v hv2 (hfresh1 st.errors hvc) hu
                exact ⟨e, walkChildren_errors_mono g (fuel + 1) rest path _ he,
                  hoff⟩
              · exact ihc path _ v hv hv2 hu
        · have h2' : ((getM g c).isCcModule && (getM g c).isSharedLibrary)
              = false := by
            cases hx : ((getM g c).isCcModule && (getM g c).isSharedLibrary)
            · rfl
            · exact absurd hx h2
          rw [walkChildren_cons_noncc h1 h2'] at hv ⊢
          by_cases hvc : v = c
          · subst hvc
            have hcs : ((getM g v).isCcModule && (getM g v).isSharedLibrary)
                = true := by
              simp only [dlUnsafeM, Bool.and_eq_true] at hu
              simp [hu.1.1.1, hu.1.1.2]
            rw [h2'] at hcs
            exact absurd hcs (by simp)
          · exact ihc path _ v hv (hfresh1 st.errors hvc) hu

/-! ### Chains and the double-loadable theorems -/

/-- An error is justified: it names an unsafe module reachable from the root
along walk-through intermediates, and its path lists the root-to-module
names. -/
def goodErr (g : List DLModule) (root : Nat) (e : DLError) : Prop :=
  ∃ q x, isChain g root (q ++ [x])
    ∧ (∀ v ∈ q, walkThroughM (getM g v) = true)
    ∧ dlUnsafeM (getM g x) = true
    ∧ e.offending = (getM g x).name
    ∧ e.path = (root :: (q ++ [x])).map (fun i => (getM g i).name)

theorem getLastD_concat' (root c : Nat) :
    ∀ q : List Nat, (q ++ [c]).getLastD root = c := by
  intro q
  induction q generalizing root with
  | nil => rfl
  | cons a q' ih =>
    rw [List.cons_append, List.getLastD_cons]
    exact ih a

theorem isChain_append_one (g : List DLModule) :
    ∀ (q : List Nat) (s c : Nat), isChain g s q →
      c ∈ (getM g (q.getLastD s)).deps → isChain g s (q ++ [c]) := by
  intro q
  induction q with
  | nil =>
    intro s c _ hc
    exact ⟨hc, trivial⟩
  | cons a q' ih =>
    intro s c hch hc
    obtain ⟨ha, hch'⟩ := hch
    rw [List.getLastD_cons] at hc
    exact ⟨ha, ih a c hch' hc⟩

theorem chain_reaches (g : List DLModule) (root : Nat) :
    ∀ (q : List Nat) (x s : Nat),
      (s = root ∨
        (s ∈ (walkChildren g g.length (getM g root).deps [root]
            ⟨[], []⟩).visited
          ∧ walkThroughM (getM g s) = true)) →
      isChain g s (q ++ [x]) →
      (∀ v ∈ q, walkThroughM (getM g v) = true) →
      x ∈ (walkChildren g g.length (getM g root).deps [root] ⟨[], []⟩).visited := by
  have hInv0 : WalkInv g g.length (⟨[], []⟩ : WalkSt) := by
    refine ⟨List.nodup_nil, ?_⟩
    simp [vcount]
  have hstep : ∀ s x, (s = root ∨
      (s ∈ (walkChildren g g.length (getM g root).deps [root]
          ⟨[], []⟩).visited ∧ walkThroughM (getM g s) = true)) →
      x ∈ (getM g s).deps →
      x ∈ (walkChildren g g.length (getM g root).deps [root]
        ⟨[], []⟩).visited := by
    intro s x hs hx
    rcases hs with hs | ⟨hs, hwt⟩
    · subst hs
      exact walkChildren_children_visited g g.length _ _ _ x hx
    · exact walkChildren_expansion g g.length (getM g root).deps [root]
        ⟨[], []⟩ hInv0 s hs (by simp) hwt x hx
  intro q
  induction q with
  | nil =>
    intro x s hs hch _hq
    exact hstep s x hs hch.1
  | cons a q' ih =>
    intro x s hs hch hq
    obtain ⟨ha, hch'⟩ := hch
    have haW := hstep s a hs ha
    exact ih x a (Or.inr ⟨haW, hq a (List.mem_cons_self a q')⟩) hch'
      (fun v hv => hq v (List.mem_cons_of_mem a hv))

theorem walkChildren_errorSound (g : List DLModule) (root : Nat) :
    ∀ (fuel : Nat) (cs q : List Nat) (st : WalkSt),
      isChain g root q →
      (∀ v ∈ q, walkThroughM (getM g v) = true) →
      (∀ c ∈ cs, isChain g root (q ++ [c])) →
      (∀ e ∈ st.errors, goodErr g root e) →
      ∀ e ∈ (walkChildren g fuel cs (root :: q) st).errors,
        goodErr g root e := by
  intro fuel
  induction fuel with
  | zero =>
    intro cs
    induction cs with
    | nil =>
      intro q st _hch _hq _hcs herr e he
      rw [walkChildren_nil] at he
      exact herr e he
    | cons c rest ihc =>
      intro q st hch hq hcs herr e he
      have hcs' : ∀ c' ∈ rest, isChain g root (q ++ [c']) :=
        fun c' hc' => hcs c' (List.mem_cons_of_mem c hc')
      by_cases h1 : c ∈ st.visited
      · rw [walkChildren_cons_mem h1] at he
        exact ihc q st hch hq hcs' herr e he
      · by_cases h2 : ((getM g c).isCcModule && (getM g c).isSharedLibrary) = true
        · by_cases h3 : (getM g c).hasVendorVariant = true
          · by_cases h4 : dlSafeM (getM g c) = true
            · rw [walkChildren_cons_safe h1 h2 h3 h4] at he
              exact ihc q (⟨c :: st.visited, st.errors⟩ : WalkSt)
                hch hq hcs' herr e he
            · have h4' : dlSafeM (getM g c) = false := by
                cases hx : dlSafeM (getM g c)
                · rfl
                · exact absurd hx h4
              rw [walkChildren_cons_offending h1 h2 h3 h4'] at he
              refine ihc q (⟨c :: st.visited, st.errors
                ++ [⟨(getM g c).name,
                    ((root :: q) ++ [c]).map (fun i => (getM g i).name)⟩]⟩ :
                  WalkSt) hch hq hcs' ?_ e he
              intro e' he'
              rcases List.mem_append.mp he' with he' | he'
              · exact herr e' he'
              · rw [List.mem_singleton] at he'
                subst he'
                refine ⟨q, c, hcs c (List.mem_cons_self c rest), hq, ?_, rfl, ?_⟩
                · simp [dlUnsafeM, h2, h3, h4']
                · rfl
          · have h3' : (getM g c).hasVendorVariant = false := by
              cases hx : (getM g c).hasVendorVariant
              · rfl
              · exact absurd hx h3
            rw [walkChildren_zero_cons_walkThrough h1 h2 h3'] at he
            exact ihc q (⟨c :: st.visited, st.errors⟩ : WalkSt)
              hch hq hcs' herr e he
        · have h2' : ((getM g c).isCcModule && (getM g c).isSharedLibrary)
              = false := by
            cases hx : ((getM g c).isCcModule && (getM g c).isSharedLibrary)
            · rfl
            · exact absurd hx h2
          rw [walkChildren_cons_noncc h1 h2'] at he
          exact ihc q (⟨c :: st.visited, st.errors⟩ : WalkSt)
            hch hq hcs' herr e he
  | succ fuel ihf =>
    intro cs
    induction cs with
    | nil =>
      intro q st _hch _hq _hcs herr e he
      rw [walkChildren_nil] at he
      exact herr e he
    | cons c rest ihc =>
      intro q st hch hq hcs herr e he
      have hcs' : ∀ c' ∈ rest, isChain g root (q ++ [c']) :=
        fun c' hc' => hcs c' (List.mem_cons_of_mem c hc')
      by_cases h1 : c ∈ st.visited
      · rw [walkChildren_cons_mem h1] at he
        exact ihc q st hch hq hcs' herr e he
      · by_cases h2 : ((getM g c).isCcModule && (getM g c).isSharedLibrary) = true
        · by_cases h3 : (getM g c).hasVendorVariant = true
          · by_cases h4 : dlSafeM (getM g c) = true
            · rw [walkChildren_cons_safe h1 h2 h3 h4] at he
              exact ihc q (⟨c :: st.visited, st.errors⟩ : WalkSt)
                hch hq hcs' herr e he
            · have h4' : dlSafeM (getM g c) = false := by
                cases hx : dlSafeM (getM g c)
                · rfl
                · exact absurd hx h4
              rw [walkChildren_cons_offending h1 h2 h3 h4'] at he
              refine ihc q (⟨c :: st.visited, st.errors
                ++ [⟨(getM g c).name,
                    ((root :: q) ++ [c]).map (fun i => (getM g i).name)⟩]⟩ :
                  WalkSt) hch hq hcs' ?_ e he
              intro e' he'
              rcases List.mem_append.mp he' with he' | he'
              · exact herr e' he'
              · rw [List.mem_singleton] at he'
                subst he'
                refine ⟨q, c, hcs c (List.mem_cons_self c rest), hq, ?_, rfl, ?_⟩
                · simp [dlUnsafeM, h2, h3, h4']
                · rfl
          · have h3' : (getM g c).hasVendorVariant = false := by
              cases hx : (getM g c).hasVendorVariant
              · rfl
              · exact absurd hx h3
            rw [walkChildren_succ_cons_walkThrough h1 h2 h3'] at he
            have hchc : isChain g root (q ++ [c]) :=
              hcs c (List.mem_cons_self c rest)
            have hqc : ∀ v ∈ q ++ [c], walkThroughM (getM g v) = true := by
              intro v hv
              rcases List.mem_append.mp hv with hv | hv
              · exact hq v hv
              · rw [List.mem_singleton] at hv
                subst hv
                simp [walkThroughM, h2, h3']
            have hinner : ∀ e' ∈ (walkChildren g fuel (getM g c).deps
                ((root :: q) ++ [c]) ⟨c :: st.visited, st.errors⟩).errors,
                goodErr g root e' := by
              have hcsd : ∀ d ∈ (getM g c).deps,
                  isChain g root ((q ++ [c]) ++ [d]) := by
                intro d hd
                refine isChain_append_one g (q ++ [c]) root d hchc ?_
                rw [getLastD_concat']
                exact hd
              have := ihf (getM g c).deps (q ++ [c])
                ⟨c :: st.visited, st.errors⟩ hchc hqc hcsd herr
              intro e' he'
              exact this e' he'
            exact ihc q (walkChildren g fuel (getM g c).deps
              ((root :: q) ++ [c]) ⟨c :: st.visited, st.errors⟩)
              hch hq hcs' hinner e he
        · have h2' : ((getM g c).isCcModule && (getM g c).isSharedLibrary)
              = false := by
            cases hx : ((getM g c).isCcModule && (getM g c).isSharedLibrary)
            · rfl
            · exact absurd hx h2
          rw [walkChildren_cons_noncc h1 h2'] at he
          exact ihc q (⟨c :: st.visited, st.errors⟩ : WalkSt)
            hch hq hcs' herr e he

/-- An LLNDK root whose dependency chain passes a *safe* vendor-capable
barrier `A` (double-loadable) before the unsafe `X`. -/
def dlBarrierGraph : List DLModule := [
  ⟨"L", true, true, false, false, true, false, [1]⟩,
  ⟨"A", true, true, true, false, false, true, [2]⟩,
  ⟨"X", true, true, true, false, false, false, []⟩]

/-- The same shape without the barrier: `A` has no vendor variant, so the
walk descends to `X`. -/
def dlChainGraph : List DLModule := [
  ⟨"L", true, true, false, false, true, false, [1]⟩,
  ⟨"A", true, true, false, false, false, false, [2]⟩,
  ⟨"X", true, true, true, false, false, false, []⟩]

/-- Counterexample to C6 as stated: in `dlBarrierGraph`, `X` (index 2) is a
shared library with a vendor variant, transitively reachable in two hops
from the LLNDK root `L`, and is not VNDK-SP, LLNDK, or double-loadable —
yet the checker reports *no* error, because the walk stops at the safe
vendor-capable intermediate `A` and never descends to `X`. -/
theorem checkDoubleLoadable_counterexample :
    checkDoubleLoadableLibraries dlBarrierGraph 0 = []
    ∧ (getM dlBarrierGraph 0).isLlndk = true
    ∧ (getM dlBarrierGraph 0).isCcModule = true
    ∧ (getM dlBarrierGraph 0).isSharedLibrary = true
    ∧ 1 ∈ (getM dlBarrierGraph 0).deps
    ∧ 2 ∈ (getM dlBarrierGraph 1).deps
    ∧ dlUnsafeM (getM dlBarrierGraph 2) = true := by
  refine ⟨by decide, by decide, by decide, by decide, by decide, by decide,
    by decide⟩

/-- **C6 (amended)** — double-load safety: for a shared-library root that is
LLNDK or explicitly double-loadable, every shared cc library with a vendor
variant that is not VNDK-SP, LLNDK, or `double_loadable:true` and is
reachable from the root along a chain of shared cc libraries *without
vendor variants* gets a checker error naming it; conversely every reported
error names such a module and lists the full root-to-module name path along
such a chain.  (Libraries reachable only through vendor-variant-capable —
even safe — or non-shared intermediates are not checked.) -/
theorem checkDoubleLoadableLibraries_spec (g : List DLModule) (root : Nat)
    (hroot : ((getM g root).isCcModule && (getM g root).isSharedLibrary
        && ((getM g root).isLlndk || (getM g root).doubleLoadable)) = true) :
    (∀ (q : List Nat) (x : Nat), isChain g root (q ++ [x]) →
      (∀ v ∈ q, walkThroughM (getM g v) = true) →
      dlUnsafeM (getM g x) = true →
      ∃ e, e ∈ checkDoubleLoadableLibraries g root
        ∧ e.offending = (getM g x).name)
    ∧ (∀ e ∈ checkDoubleLoadableLibraries g root, goodErr g root e) := by
  have hck : checkDoubleLoadableLibraries g root
      = (walkChildren g g.length (getM g root).deps [root] ⟨[], []⟩).errors := by
    simp [checkDoubleLoadableLibraries, hroot]
  constructor
  · intro q x hch hq hu
    have hx : x ∈ (walkChildren g g.length (getM g root).deps [root]
        ⟨[], []⟩).visited :=
      chain_reaches g root q x root (Or.inl rfl) hch hq
    obtain ⟨e, he, hoff⟩ := walkChildren_errorComplete g g.length
      (getM g root).deps [root] ⟨[], []⟩ x hx (by simp) hu
    exact ⟨e, hck ▸ he, hoff⟩
  · intro e he
    rw [hck] at he
    refine walkChildren_errorSound g root g.length (getM g root).deps []
      ⟨[], []⟩ trivial (by simp) ?_ (by simp) e he
    intro c hc
    exact ⟨hc, trivial⟩

/-- Witness for C6 (amended): in `dlChainGraph` the unsafe `X` is reached
through the walk-through intermediate `A`, and the checker reports an error
naming `X`. -/
theorem checkDoubleLoadableLibraries_spec_witness :
    ∃ e, e ∈ checkDoubleLoadableLibraries dlChainGraph 0
      ∧ e.offending = (getM dlChainGraph 2).name :=
  (checkDoubleLoadableLibraries_spec dlChainGraph 0 (by decide)).1 [1] 2
    ⟨by decide, by decide, trivial⟩ (by decide) (by decide)

end CcSpec
